import Mathlib

/-!
Verification of the line-list merge/sort engine `TurboSort`
(src/VALDToTurbo.py, lines 64-121) against its specification.

The program is embedded shallowly: a Python string is a `List Char`
(lines keep their trailing newline, as `readlines` produces them), the
per-invocation accumulator `atom_dict` is an insertion-ordered
association list, and the `while` loop over a file's lines is a fuelled
recursion (the fuel bounds the number of loop iterations; `none` models
a run of the loop that does not terminate, which cannot happen on the
inputs considered here).  Exceptions raised by the Python code
(`IndexError` from an out-of-range subscript, `ValueError` from `int`)
are modelled by `Except ParseError`; an error result aborts the run
before the output file is written.
-/

namespace VALD

/-- A line of text as Python reads it: `readlines` keeps the trailing newline. -/
abbrev Line := List Char

/-- Whitespace recognised by Python `str.split()` and `int()` stripping
(ASCII subset; line-list files only contain spaces, tabs and newlines). -/
def isWs (c : Char) : Bool :=
  c = ' ' || c = '\t' || c = '\n' || c = '\r' || c = '\x0b' || c = '\x0c'

/-- Worker for `splitWs`; `acc` holds the characters of the current token,
reversed. -/
def splitWsGo : List Char → List Char → List (List Char)
  | acc, [] => if acc = [] then [] else [acc.reverse]
  | acc, c :: cs =>
    if isWs c then
      if acc = [] then splitWsGo [] cs else acc.reverse :: splitWsGo [] cs
    else splitWsGo (c :: acc) cs

/-- Python `s.split()` with no argument: split on runs of whitespace,
dropping empty tokens. -/
def splitWs (s : List Char) : List (List Char) := splitWsGo [] s

/-- Numeric value of a string of decimal digits. -/
def valDigits (ds : List Char) : Nat :=
  ds.foldl (fun a c => 10 * a + (c.toNat - 48)) 0

/-- Fuelled decimal printer; `natDigitsGo (n + 1) n` is the digit string of
`n` (each recursive step divides `n` by ten, so `n + 1` units of fuel are
always enough). -/
def natDigitsGo : Nat → Nat → List Char
  | 0, _ => []
  | fuel + 1, n =>
    if n < 10 then [Char.ofNat (48 + n)]
    else natDigitsGo fuel (n / 10) ++ [Char.ofNat (48 + n % 10)]

/-- Python `str(n)` for `n : Nat`. -/
def natDigits (n : Nat) : List Char := natDigitsGo (n + 1) n

/-- Python `str(i)` for an integer. -/
def pyStr (i : Int) : List Char :=
  if i < 0 then '-' :: natDigits i.natAbs else natDigits i.toNat

/-- Python `int(s)`: strip whitespace, accept an optional sign followed by a
nonempty run of decimal digits, and fail (`ValueError`, here `none`)
otherwise. -/
def pyInt? (s : List Char) : Option Int :=
  match ((s.dropWhile isWs).reverse.dropWhile isWs).reverse with
  | [] => none
  | c :: cs =>
    if c = '-' then
      if !cs.isEmpty && cs.all Char.isDigit then some (-(valDigits cs : Int)) else none
    else if c = '+' then
      if !cs.isEmpty && cs.all Char.isDigit then some ((valDigits cs : Int)) else none
    else if (c :: cs).all Char.isDigit then some ((valDigits (c :: cs) : Int)) else none

/-- Python `s.replace(p, r)` for an empty pattern `p`: the replacement is
interleaved before every character and at the end. -/
def interleave (r : List Char) : List Char → List Char
  | [] => r
  | c :: cs => r ++ c :: interleave r cs

/-- Fuelled scanner for Python `s.replace(p, r)` with a nonempty pattern:
leftmost non-overlapping matches, scanning resumes after each replacement.
One unit of fuel is spent per consumed character, so `s.length + 1` units
always suffice. -/
def replaceGo (p r : List Char) : Nat → List Char → List Char
  | 0, s => s
  | _ + 1, [] => []
  | fuel + 1, c :: cs =>
    if p.isPrefixOf (c :: cs) then r ++ replaceGo p r fuel (cs.drop (p.length - 1))
    else c :: replaceGo p r fuel cs

/-- Python `s.replace(p, r)`. -/
def pyReplace (s p r : List Char) : List Char :=
  if p.isEmpty then interleave r s else replaceGo p r (s.length + 1) s

/-- Python `l[i]` on a list of lines: negative indices count from the end;
`none` models the `IndexError` raised when the index is out of range. -/
def pyGet (l : List Line) (i : Int) : Option Line :=
  if 0 ≤ i then l.get? i.toNat
  else if 0 ≤ i + l.length then l.get? (i + l.length).toNat
  else none

/-- Python `l[a:b]` (step 1) on a list of lines: bounds are clamped, never
raising. -/
def pySlice (l : List Line) (a b : Int) : List Line :=
  let n : Int := l.length
  let a2 := if a < 0 then max 0 (a + n) else min a n
  let b2 := if b < 0 then max 0 (b + n) else min b n
  (l.drop a2.toNat).take (b2.toNat - a2.toNat)

/-- Python sequence `<` over an element order `lt`: the first differing
element decides, and a strict prefix is smaller. -/
def seqLt (lt : α → α → Bool) : List α → List α → Bool
  | [], [] => false
  | [], _ :: _ => true
  | _ :: _, [] => false
  | x :: xs, y :: ys => if lt x y then true else if lt y x then false else seqLt lt xs ys

/-- Python string `<`: code-point lexicographic comparison. -/
def lexLt (a b : List Char) : Bool := seqLt (fun c d => decide (c < d)) a b

/-- Python string `<=`. -/
def lexLe (a b : List Char) : Bool := !(lexLt b a)

/-- Python `<` on lists of strings (the comparison `list.sort` applies to the
stored `[header, element_key] + lines` values). -/
def blockLt (a b : List Line) : Bool := seqLt lexLt a b

/-- Python `<=` on lists of strings. -/
def blockLe (a b : List Line) : Bool := !(blockLt b a)

/-- Insertion step of the sort model: the new element goes after every
element that is `le` it, so elements equal under `le` keep their original
relative order. -/
def pyInsert (le : α → α → Bool) (x : α) : List α → List α
  | [] => [x]
  | y :: ys => if le y x then y :: pyInsert le x ys else x :: y :: ys

/-- Model of Python `list.sort()` for a comparator `le` that is a total
preorder: a stable insertion sort.  Python's sort is also stable and
correct, and the comparators used by `TurboSort` (string and
list-of-string comparison) are antisymmetric, so the sorted output is the
unique sorted permutation and agrees with Python's. -/
def pySortBy (le : α → α → Bool) (l : List α) : List α :=
  l.foldl (fun acc x => pyInsert le x acc) []

/-- The exceptions the `TurboSort` loop can raise while parsing:
`IndexError` from `header.split()[4]` (or a bad subscript), `ValueError`
from `int(...)`. -/
inductive ParseError where
  | indexError : ParseError
  | valueError : ParseError
deriving DecidableEq

/-- A stored block: `[header, element_key] + data lines`, exactly the list
the source keeps as a value of `atom_dict`. -/
abbrev Block := List Line

/-- The accumulator `atom_dict`: an insertion-ordered association list from
the `element_key` line to the block, as a Python `dict` iterates. -/
abbrev AtomDict := List (Line × Block)

/-- Python `atom_dict[k]` / `k in atom_dict.keys()`. -/
def dictLookup (k : Line) : AtomDict → Option Block
  | [] => none
  | (k2, v) :: d => if k2 = k then some v else dictLookup k d

/-- Python `atom_dict[k] = v` for a key already present: the entry keeps its
position. -/
def dictUpdate (k : Line) (v : Block) : AtomDict → AtomDict
  | [] => []
  | (k2, v2) :: d => if k2 = k then (k2, v) :: d else (k2, v2) :: dictUpdate k v d

/-- The header rebuild of `TurboSort` (VALDToTurbo.py lines 88-98): keep the
first 27 characters, replace the old count's text in the remainder by the
new count's text, then force the remainder to exactly 10 characters,
truncating from the left when too long and padding with spaces on the left
when too short. -/
def updateHeader (h : Line) (prev total : Int) : Line :=
  let startLine := h.take 27
  let endLineUpdated := pyReplace (h.drop 27) (pyStr prev) (pyStr total)
  if endLineUpdated.length > 10 then
    startLine ++ endLineUpdated.drop (endLineUpdated.length - 10)
  else if endLineUpdated.length < 10 then
    startLine ++ List.replicate (10 - endLineUpdated.length) ' ' ++ endLineUpdated
  else
    startLine ++ endLineUpdated

/-- The merge branch of `TurboSort` (VALDToTurbo.py lines 86-104): re-parse
the stored header's count, add the incoming count, rebuild the header,
append the incoming lines and re-sort everything after the first two
entries.  Errors model the exceptions `int(...)` and `[0]`/`[4]` can
raise. -/
def mergeBlock (blk : Block) (count : Int) (splice : List Line) : Except ParseError Block :=
  match blk with
  | [] => Except.error ParseError.indexError
  | h0 :: rest =>
    match (splitWs h0).get? 4 with
    | none => Except.error ParseError.indexError
    | some tok =>
      match pyInt? tok with
      | none => Except.error ParseError.valueError
      | some prev =>
        let total := count + prev
        let blk2 := (updateHeader h0 prev total :: rest) ++ splice
        Except.ok (blk2.take 2 ++ pySortBy lexLe (blk2.drop 2))

/-- The block-walk loop of `TurboSort` over one file (VALDToTurbo.py lines
74-108).  `fileLine` is the 1-based counter of the source; each iteration
reads the header at `fileLine - 1`, the element key on the next line,
parses the count from whitespace token 4 of the header, slices out that
many data lines and either stores the fresh block or merges it into the
stored one.  The fuel counts loop iterations; `none` means it ran out,
which models the loop failing to terminate. -/
def walk (lines : List Line) : Nat → Int → AtomDict → Option (Except ParseError AtomDict)
  | 0, _, _ => none
  | fuel + 1, fileLine, dict =>
    if fileLine < (lines.length : Int) then
      let lineIndex := fileLine - 1
      match pyGet lines lineIndex, pyGet lines (lineIndex + 1) with
      | some header, some atomicSym =>
        match (splitWs header).get? 4 with
        | none => some (Except.error ParseError.indexError)
        | some tok =>
          match pyInt? tok with
          | none => some (Except.error ParseError.valueError)
          | some atomicLines =>
            let splice := pySlice lines (lineIndex + 2) (lineIndex + 2 + atomicLines)
            let fileLine2 := lineIndex + 2 + atomicLines + 1
            match dictLookup atomicSym dict with
            | some blk =>
              match mergeBlock blk atomicLines splice with
              | Except.error e => some (Except.error e)
              | Except.ok nb => walk lines fuel fileLine2 (dictUpdate atomicSym nb dict)
            | none => walk lines fuel fileLine2 (dict ++ [(atomicSym, header :: atomicSym :: splice)])
      | _, _ => some (Except.error ParseError.indexError)
    else
      some (Except.ok dict)

/-- Processing of the files of the input directory in order (the `for
linelist in os.listdir(...)` loop): each file restarts `file_line` at 1
and threads the shared accumulator. -/
def runFiles : List (List Line) → AtomDict → Option (Except ParseError AtomDict)
  | [], dict => some (Except.ok dict)
  | f :: fs, dict =>
    match walk f (f.length + 1) 1 dict with
    | none => none
    | some (Except.error e) => some (Except.error e)
    | some (Except.ok d2) => runFiles fs d2

/-- `TurboSort` end to end on the directory's files (VALDToTurbo.py lines
72-121): run the accumulation, then sort the accumulated blocks by plain
sequence comparison and concatenate their lines.  The returned list is
exactly what the source writes to the output file; an `Except.error`
models an exception aborting the run before the output file is opened.
(The source's loop computing `"\n".join(val)` on line 113 discards its
result and has no effect.) -/
def turboSort (files : List (List Line)) : Option (Except ParseError (List Line)) :=
  match runFiles files [] with
  | none => none
  | some (Except.error e) => some (Except.error e)
  | some (Except.ok dict) =>
    some (Except.ok (pySortBy blockLe (dict.map (fun p => p.2))).flatten)

/-- Right-justification rule as the spec states it (spec section 3): the
field is exactly 10 characters, truncated from the left when too long,
left-padded with spaces when too short. -/
def rightJustify10 (s : List Char) : List Char :=
  if s.length ≤ 10 then List.replicate (10 - s.length) ' ' ++ s
  else s.drop (s.length - 10)

/-- A header of the canonical shape the input format prescribes: 27 fixed
characters (carrying whitespace tokens 0-3 and ending in a space), spaces,
the decimal count (whitespace token 4), and the trailing newline that
`readlines` keeps. -/
def headerWithCount (pre : Line) (m count : Nat) : Line :=
  pre ++ List.replicate m ' ' ++ natDigits count ++ ['\n']

/-- Modelled from the spec (sections 4.1 and 6): a well-formed file is an
exact sequence of blocks, each a header line, an element-key line and
exactly the declared number of data lines.  `none` when the file is not
such a sequence (missing keys, bad counts, counts past the end of file, or
a trailing line).  Used as the reference reading of a file when relating
the accumulated dictionary to the blocks "as read". -/
def specReadBlocks : Nat → List Line → Option (List (Line × Line × List Line))
  | 0, _ => none
  | _ + 1, [] => some []
  | _ + 1, [_] => none
  | fuel + 1, h :: k :: rest =>
    match (splitWs h).get? 4 with
    | none => none
    | some tok =>
      match pyInt? tok with
      | none => none
      | some c =>
        if 0 ≤ c ∧ c.toNat ≤ rest.length then
          match specReadBlocks fuel (rest.drop c.toNat) with
          | none => none
          | some bs => some ((h, k, rest.take c.toNat) :: bs)
        else none

/-- Reference reading of one whole file into its blocks as written
(`specReadBlocks` with always-sufficient fuel). -/
def readBlocks (l : List Line) : Option (List (Line × Line × List Line)) :=
  specReadBlocks (l.length + 1) l

/-- The `[header, element_key] + lines` representation of an as-read block. -/
def blockOf (b : Line × Line × List Line) : Block :=
  b.1 :: b.2.1 :: b.2.2

/-- A line is traceable to the pool of input lines: it is one of them
byte-for-byte, or it is a rewritten header that agrees with one of them on
columns 0-26. -/
def traceable (pool : List Line) (l : Line) : Prop :=
  l ∈ pool ∨ ∃ h, h ∈ pool ∧ l.take 27 = h.take 27

/-- Invariant of the accumulator: every stored line is traceable to the
input pool, and every stored block's header line is at least 27 characters
long (so later rebuilds keep its first 27 characters intact). -/
def goodDict (pool : List Line) (d : AtomDict) : Prop :=
  ∀ kv ∈ d, (∀ l ∈ kv.2, traceable pool l) ∧ ∀ h, kv.2.head? = some h → 27 ≤ h.length

/-! ### Decimal digit strings -/

lemma digitChar_facts (n : Nat) (h : n < 10) :
    (Char.ofNat (48 + n)).isDigit = true ∧ (Char.ofNat (48 + n)).toNat = 48 + n := by
  interval_cases n <;> exact ⟨by decide, by decide⟩

lemma isDigit_toNat {c : Char} (h : c.isDigit = true) : 48 ≤ c.toNat ∧ c.toNat ≤ 57 := by
  simp only [Char.isDigit, decide_eq_true_eq, Bool.and_eq_true, decide_eq_true_iff] at h
  obtain ⟨h1, h2⟩ := h
  constructor
  · exact h1
  · exact h2

lemma valDigits_append_singleton (xs : List Char) (c : Char) :
    valDigits (xs ++ [c]) = 10 * valDigits xs + (c.toNat - 48) := by
  simp [valDigits, List.foldl_append]

lemma natDigitsGo_spec :
    ∀ fuel n, n < fuel →
      natDigitsGo fuel n ≠ [] ∧ (∀ c ∈ natDigitsGo fuel n, c.isDigit = true) ∧
        valDigits (natDigitsGo fuel n) = n := by
  intro fuel
  induction fuel with
  | zero => intro n hn; omega
  | succ f ih =>
    intro n hn
    by_cases h : n < 10
    · refine ⟨by simp [natDigitsGo, h], ?_, ?_⟩
      · intro c hc
        simp [natDigitsGo, h] at hc
        subst hc
        exact (digitChar_facts n h).1
      · simp [natDigitsGo, h, valDigits, (digitChar_facts n h).2]
    · have hdiv : n / 10 < f := by
        have h1 : n / 10 < n := Nat.div_lt_self (by omega) (by omega)
        omega
      obtain ⟨h1, h2, h3⟩ := ih (n / 10) hdiv
      have hmod : n % 10 < 10 := Nat.mod_lt _ (by omega)
      refine ⟨by simp [natDigitsGo, h], ?_, ?_⟩
      · intro c hc
        simp [natDigitsGo, h] at hc
        rcases hc with hc | hc
        · exact h2 c hc
        · subst hc; exact (digitChar_facts _ hmod).1
      · simp only [natDigitsGo, h, if_false, ite_false]
        rw [valDigits_append_singleton, h3, (digitChar_facts _ hmod).2]
        omega

lemma natDigits_ne_nil (n : Nat) : natDigits n ≠ [] :=
  (natDigitsGo_spec (n + 1) n (Nat.lt_succ_self n)).1

lemma natDigits_digits (n : Nat) : ∀ c ∈ natDigits n, c.isDigit = true :=
  (natDigitsGo_spec (n + 1) n (Nat.lt_succ_self n)).2.1

lemma valDigits_natDigits (n : Nat) : valDigits (natDigits n) = n :=
  (natDigitsGo_spec (n + 1) n (Nat.lt_succ_self n)).2.2

lemma not_isWs_of_isDigit {c : Char} (h : c.isDigit = true) : isWs c = false := by
  have e1 : c ≠ ' ' := by intro e; subst e; exact absurd h (by decide)
  have e2 : c ≠ '\t' := by intro e; subst e; exact absurd h (by decide)
  have e3 : c ≠ '\n' := by intro e; subst e; exact absurd h (by decide)
  have e4 : c ≠ '\r' := by intro e; subst e; exact absurd h (by decide)
  have e5 : c ≠ '\x0b' := by intro e; subst e; exact absurd h (by decide)
  have e6 : c ≠ '\x0c' := by intro e; subst e; exact absurd h (by decide)
  simp [isWs, e1, e2, e3, e4, e5, e6]

lemma ne_sign_of_isDigit {c : Char} (h : c.isDigit = true) : c ≠ '-' ∧ c ≠ '+' := by
  constructor
  · intro e; subst e; exact absurd h (by decide)
  · intro e; subst e; exact absurd h (by decide)

lemma dropWhile_isWs_of_head_digit {s : List Char} (hne : s ≠ [])
    (hd : ∀ c ∈ s, c.isDigit = true) : s.dropWhile isWs = s := by
  obtain ⟨c, cs, rfl⟩ := List.exists_cons_of_ne_nil hne
  have : isWs c = false := not_isWs_of_isDigit (hd c (by simp))
  simp [List.dropWhile_cons, this]

lemma pyInt?_digits {s : List Char} (hne : s ≠ []) (hd : ∀ c ∈ s, c.isDigit = true) :
    pyInt? s = some ((valDigits s : Nat) : Int) := by
  have hrev : s.reverse ≠ [] := by simpa using hne
  have hdrev : ∀ c ∈ s.reverse, c.isDigit = true := by
    intro c hc; exact hd c (List.mem_reverse.mp hc)
  have e1 : s.dropWhile isWs = s := dropWhile_isWs_of_head_digit hne hd
  have e2 : s.reverse.dropWhile isWs = s.reverse := dropWhile_isWs_of_head_digit hrev hdrev
  unfold pyInt?
  rw [e1, e2, List.reverse_reverse]
  obtain ⟨c, cs, rfl⟩ := List.exists_cons_of_ne_nil hne
  obtain ⟨hs1, hs2⟩ := ne_sign_of_isDigit (hd c (by simp))
  have hall : (c :: cs).all Char.isDigit = true := by
    simp only [List.all_eq_true]
    exact hd
  simp [hs1, hs2, hall]

lemma pyInt?_natDigits (n : Nat) : pyInt? (natDigits n) = some (n : Int) := by
  rw [pyInt?_digits (natDigits_ne_nil n) (natDigits_digits n), valDigits_natDigits]

lemma pyStr_coe_nat (n : Nat) : pyStr (n : Int) = natDigits n := by
  simp [pyStr]

/-! ### Whitespace splitting -/

lemma splitWsGo_replicate_space (m : Nat) (s : List Char) :
    splitWsGo [] (List.replicate m ' ' ++ s) = splitWsGo [] s := by
  induction m with
  | zero => rfl
  | succ k ih => simpa [splitWsGo, isWs] using ih

lemma splitWsGo_token (d : List Char) (hd : ∀ c ∈ d, isWs c = false) :
    ∀ acc s, splitWsGo acc (d ++ s) = splitWsGo (d.reverse ++ acc) s := by
  induction d with
  | nil => intro acc s; simp
  | cons c d' ih =>
    intro acc s
    have hc : isWs c = false := hd c (by simp)
    have hd' : ∀ x ∈ d', isWs x = false := fun x hx => hd x (by simp [hx])
    simp only [List.cons_append, splitWsGo, hc, Bool.false_eq_true, if_false, ite_false,
      List.append_eq]
    rw [ih hd' (c :: acc) s]
    simp

lemma splitWs_token_newline (d : List Char) (hne : d ≠ [])
    (hd : ∀ c ∈ d, isWs c = false) : splitWs (d ++ ['\n']) = [d] := by
  unfold splitWs
  rw [splitWsGo_token d hd [] ['\n']]
  have hrev : d.reverse ++ [] ≠ [] := by simpa using hne
  simp only [List.append_nil] at hrev ⊢
  simp [splitWsGo, isWs, hrev]

lemma splitWsGo_append_ws (a : List Char) (w : Char) (hw : isWs w = true) :
    ∀ acc b, splitWsGo acc ((a ++ [w]) ++ b) = splitWsGo acc (a ++ [w]) ++ splitWsGo [] b := by
  induction a with
  | nil =>
    intro acc b
    by_cases hacc : acc = []
    · simp [splitWsGo, hw, hacc]
    · simp [splitWsGo, hw, hacc]
  | cons c a' ih =>
    intro acc b
    by_cases hc : isWs c = true
    · by_cases hacc : acc = []
      · simp only [List.cons_append, splitWsGo, hc, if_true, hacc, ite_true, List.append_eq]
        exact ih [] b
      · simp only [List.cons_append, splitWsGo, hc, if_true, hacc, ite_false, List.append_eq]
        rw [ih [] b]
    · simp only [List.cons_append, splitWsGo, hc, Bool.false_eq_true, if_false, ite_false,
        List.append_eq]
      exact ih (c :: acc) b

lemma splitWs_append_last_space (pre : Line) (hlast : pre.getLast? = some ' ') (b : List Char) :
    splitWs (pre ++ b) = splitWs pre ++ splitWs b := by
  obtain ⟨a, rfl⟩ : ∃ a, pre = a ++ [' '] := by
    rcases List.eq_nil_or_concat pre with h | ⟨a, c, rfl⟩
    · subst h; simp at hlast
    · rw [List.concat_eq_append] at hlast ⊢
      rw [List.getLast?_append_cons] at hlast
      obtain rfl : c = ' ' := by simpa using hlast
      exact ⟨a, rfl⟩
  exact splitWsGo_append_ws a ' ' (by decide) [] b

lemma splitWs_replicate_space (m : Nat) (s : List Char) :
    splitWs (List.replicate m ' ' ++ s) = splitWs s :=
  splitWsGo_replicate_space m s

lemma splitWs_headerWithCount (pre : Line) (m count : Nat)
    (hlast : pre.getLast? = some ' ') :
    splitWs (headerWithCount pre m count) = splitWs pre ++ [natDigits count] := by
  unfold headerWithCount
  simp only [List.append_assoc]
  rw [splitWs_append_last_space pre hlast, splitWs_replicate_space,
    splitWs_token_newline (natDigits count) (natDigits_ne_nil count)
      (fun c hc => not_isWs_of_isDigit (natDigits_digits count c hc))]

lemma get?_four_of_len_four {toks : List (List Char)} {d : List Char}
    (h : toks.length = 4) : (toks ++ [d]).get? 4 = some d := by
  rw [List.get?_eq_getElem?, List.getElem?_append_right (by omega), h]
  rfl

/-! ### Python `str.replace` -/

lemma isPrefixOf_append_self (p s : List Char) : p.isPrefixOf (p ++ s) = true := by
  induction p with
  | nil => simp [List.isPrefixOf]
  | cons c p' ih => simpa [List.isPrefixOf] using ih

lemma isPrefixOf_ne_head {p : List Char} {c : Char} (hp : p ≠ [])
    (hc : p.head? ≠ some c) (s : List Char) : p.isPrefixOf (c :: s) = false := by
  obtain ⟨x, p', rfl⟩ := List.exists_cons_of_ne_nil hp
  have : x ≠ c := by intro e; subst e; simp at hc
  simp [List.isPrefixOf, this]

lemma replaceGo_cons_match {p r : List Char} {c : Char} {cs : List Char} (f : Nat)
    (hpre : p.isPrefixOf (c :: cs) = true) :
    replaceGo p r (f + 1) (c :: cs) = r ++ replaceGo p r f (cs.drop (p.length - 1)) := by
  simp [replaceGo, hpre]

lemma replaceGo_cons_nomatch {p r : List Char} {c : Char} {cs : List Char} (f : Nat)
    (hpre : p.isPrefixOf (c :: cs) = false) :
    replaceGo p r (f + 1) (c :: cs) = c :: replaceGo p r f cs := by
  simp [replaceGo, hpre]

lemma replaceGo_congr (p r : List Char) (hp : p ≠ []) :
    ∀ fuel1 fuel2 s, s.length < fuel1 → s.length < fuel2 →
      replaceGo p r fuel1 s = replaceGo p r fuel2 s := by
  intro fuel1
  induction fuel1 with
  | zero => intro fuel2 s h1; omega
  | succ f1 ih =>
    intro fuel2 s h1 h2
    match fuel2, s with
    | f2 + 1, [] => rfl
    | f2 + 1, c :: cs =>
      have hplen : 1 ≤ p.length := by
        obtain ⟨x, p', rfl⟩ := List.exists_cons_of_ne_nil hp
        simp
      by_cases hpre : p.isPrefixOf (c :: cs) = true
      · have hlen : (cs.drop (p.length - 1)).length < f1 := by
          have := cs.length_drop (p.length - 1)
          simp only [List.length_cons] at h1
          omega
        have hlen2 : (cs.drop (p.length - 1)).length < f2 := by
          have := cs.length_drop (p.length - 1)
          simp only [List.length_cons] at h2
          omega
        rw [replaceGo_cons_match f1 hpre, replaceGo_cons_match f2 hpre, ih f2 _ hlen hlen2]
      · have hpre2 : p.isPrefixOf (c :: cs) = false := by
          cases h2 : p.isPrefixOf (c :: cs)
          · rfl
          · exact absurd h2 hpre
        have hlen : cs.length < f1 := by simp only [List.length_cons] at h1; omega
        have hlen2 : cs.length < f2 := by simp only [List.length_cons] at h2; omega
        rw [replaceGo_cons_nomatch f1 hpre2, replaceGo_cons_nomatch f2 hpre2, ih f2 cs hlen hlen2]

lemma replaceGo_nil (p r : List Char) (fuel : Nat) (h : 0 < fuel) :
    replaceGo p r fuel [] = [] := by
  match fuel with
  | f + 1 => rfl

lemma replaceGo_skip (p r : List Char) (hp : p ≠ []) {c : Char} (hc : p.head? ≠ some c) :
    ∀ fuel s, s.length + 1 < fuel → replaceGo p r fuel (c :: s) = c :: replaceGo p r fuel s := by
  intro fuel s hlt
  match fuel with
  | f + 1 =>
    rw [replaceGo_cons_nomatch f (isPrefixOf_ne_head hp hc s)]
    rw [replaceGo_congr p r hp f (f + 1) s (by omega) (by omega)]

lemma replaceGo_match (p r : List Char) (hp : p ≠ []) :
    ∀ fuel s, p.length + s.length < fuel →
      replaceGo p r fuel (p ++ s) = r ++ replaceGo p r fuel s := by
  intro fuel s hlt
  obtain ⟨c, p', rfl⟩ := List.exists_cons_of_ne_nil hp
  match fuel with
  | f + 1 =>
    have hpre : (c :: p').isPrefixOf (c :: (p' ++ s)) = true := by
      have := isPrefixOf_append_self (c :: p') s
      simpa using this
    have hcons : (c :: p') ++ s = c :: (p' ++ s) := by simp
    rw [hcons, replaceGo_cons_match f hpre]
    have hdrop : (p' ++ s).drop ((c :: p').length - 1) = s := by
      simp only [List.length_cons, Nat.add_sub_cancel]
      have : p'.length + 0 = p'.length := by omega
      simpa using List.drop_left p' s
    rw [hdrop]
    rw [replaceGo_congr _ r hp f (f + 1) s (by simp only [List.length_cons] at hlt; omega)
      (by simp only [List.length_cons] at hlt; omega)]

lemma replaceGo_spaces (p r : List Char) (hp : p ≠ []) (hc : p.head? ≠ some ' ') :
    ∀ m fuel s, m + s.length < fuel →
      replaceGo p r fuel (List.replicate m ' ' ++ s)
        = List.replicate m ' ' ++ replaceGo p r fuel s := by
  intro m
  induction m with
  | zero => intro fuel s h; simp
  | succ k ih =>
    intro fuel s h
    have : List.replicate (k + 1) ' ' ++ s = ' ' :: (List.replicate k ' ' ++ s) := by
      simp [List.replicate_succ]
    rw [this, replaceGo_skip p r hp hc fuel _ (by simp; omega), ih fuel s (by omega)]
    simp [List.replicate_succ]

lemma natDigits_head_ne_space (n : Nat) : (natDigits n).head? ≠ some ' ' := by
  obtain ⟨c, cs, he⟩ := List.exists_cons_of_ne_nil (natDigits_ne_nil n)
  rw [he]
  have hd : c.isDigit = true := natDigits_digits n c (by rw [he]; simp)
  have : c ≠ ' ' := by intro e; subst e; exact absurd hd (by decide)
  simp [this]

lemma natDigits_head_ne_newline (n : Nat) : (natDigits n).head? ≠ some '\n' := by
  obtain ⟨c, cs, he⟩ := List.exists_cons_of_ne_nil (natDigits_ne_nil n)
  rw [he]
  have hd : c.isDigit = true := natDigits_digits n c (by rw [he]; simp)
  have : c ≠ '\n' := by intro e; subst e; exact absurd hd (by decide)
  simp [this]

/-- The replacement step of the header rebuild on a canonical tail
`spaces ++ old-count ++ newline`: exactly the count text is replaced. -/
lemma pyReplace_canonical_tail (m old new : Nat) :
    pyReplace (List.replicate m ' ' ++ natDigits old ++ ['\n'])
        (natDigits old) (natDigits new)
      = List.replicate m ' ' ++ natDigits new ++ ['\n'] := by
  have hp : natDigits old ≠ [] := natDigits_ne_nil old
  unfold pyReplace
  rw [if_neg (by simp [List.isEmpty_iff, hp])]
  rw [List.append_assoc]
  rw [replaceGo_spaces _ _ hp (natDigits_head_ne_space old) m _ _
    (by simp only [List.length_append, List.length_replicate, List.length_cons,
      List.length_nil]; omega)]
  rw [replaceGo_match _ _ hp _ ['\n']
    (by simp only [List.length_append, List.length_replicate, List.length_cons,
      List.length_nil]; omega)]
  rw [replaceGo_skip _ _ hp (natDigits_head_ne_newline old) _ []
    (by simp only [List.length_append, List.length_replicate, List.length_cons,
      List.length_nil]; omega),
    replaceGo_nil _ _ _
    (by simp only [List.length_append, List.length_replicate, List.length_cons,
      List.length_nil]; omega)]
  simp

/-! ### The comparators are total strict orders -/

/-- Hypothesis bundle for an element comparator `lt`: asymmetric,
connected (incomparable elements are equal) and transitive. -/
def StrictTotal (lt : α → α → Bool) : Prop :=
  (∀ x y, lt x y = true → lt y x = false) ∧
  (∀ x y, lt x y = false → lt y x = false → x = y) ∧
  (∀ x y z, lt x y = true → lt y z = true → lt x z = true)

lemma seqLt_asymm {lt : α → α → Bool} (hst : StrictTotal lt) :
    ∀ a b, seqLt lt a b = true → seqLt lt b a = false := by
  intro a
  induction a with
  | nil =>
    intro b h
    cases b with
    | nil => simp [seqLt] at h
    | cons y ys => rfl
  | cons x xs ih =>
    intro b h
    cases b with
    | nil => simp [seqLt] at h
    | cons y ys =>
      simp only [seqLt] at h ⊢
      by_cases hxy : lt x y = true
      · have h1 : lt y x = false := hst.1 x y hxy
        simp [hxy, h1]
      · have hxy2 : lt x y = false := by
          cases h2 : lt x y
          · rfl
          · exact absurd h2 hxy
        by_cases hyx : lt y x = true
        · simp [hxy2, hyx] at h
        · have hyx2 : lt y x = false := by
            cases h2 : lt y x
            · rfl
            · exact absurd h2 hyx
          simp only [hxy2, hyx2, Bool.false_eq_true, if_false, ite_false] at h ⊢
          exact ih ys h

lemma seqLt_conn {lt : α → α → Bool} (hst : StrictTotal lt) :
    ∀ a b, seqLt lt a b = false → seqLt lt b a = false → a = b := by
  intro a
  induction a with
  | nil =>
    intro b h1 h2
    cases b with
    | nil => rfl
    | cons y ys => simp [seqLt] at h1
  | cons x xs ih =>
    intro b h1 h2
    cases b with
    | nil => simp [seqLt] at h2
    | cons y ys =>
      simp only [seqLt] at h1 h2
      by_cases hxy : lt x y = true
      · simp [hxy] at h1
      · have hxy2 : lt x y = false := by
          cases h : lt x y
          · rfl
          · exact absurd h hxy
        by_cases hyx : lt y x = true
        · simp [hyx] at h2
        · have hyx2 : lt y x = false := by
            cases h : lt y x
            · rfl
            · exact absurd h hyx
          simp only [hxy2, hyx2, Bool.false_eq_true, if_false, ite_false] at h1 h2
          rw [hst.2.1 x y hxy2 hyx2, ih ys h1 h2]

lemma seqLt_trans {lt : α → α → Bool} (hst : StrictTotal lt) :
    ∀ a b c, seqLt lt a b = true → seqLt lt b c = true → seqLt lt a c = true := by
  intro a
  induction a with
  | nil =>
    intro b c h1 h2
    cases b with
    | nil => simp [seqLt] at h1
    | cons y ys =>
      cases c with
      | nil => simp [seqLt] at h2
      | cons z zs => simp [seqLt]
  | cons x xs ih =>
    intro b c h1 h2
    cases b with
    | nil => simp [seqLt] at h1
    | cons y ys =>
      cases c with
      | nil => simp [seqLt] at h2
      | cons z zs =>
        simp only [seqLt] at h1 h2 ⊢
        by_cases hxy : lt x y = true
        · by_cases hyz : lt y z = true
          · simp [hst.2.2 x y z hxy hyz]
          · have hyz2 : lt y z = false := by
              cases h : lt y z
              · rfl
              · exact absurd h hyz
            by_cases hzy : lt z y = true
            · simp [hyz2, hzy] at h2
            · have hzy2 : lt z y = false := by
                cases h : lt z y
                · rfl
                · exact absurd h hzy
              have : y = z := hst.2.1 y z hyz2 hzy2
              subst this
              simp [hxy]
        · have hxy2 : lt x y = false := by
            cases h : lt x y
            · rfl
            · exact absurd h hxy
          by_cases hyx : lt y x = true
          · simp [hxy2, hyx] at h1
          · have hyx2 : lt y x = false := by
              cases h : lt y x
              · rfl
              · exact absurd h hyx
            have hxyeq : x = y := hst.2.1 x y hxy2 hyx2
            subst hxyeq
            simp only [hxy2, hyx2, Bool.false_eq_true, if_false, ite_false] at h1 ⊢
            by_cases hxz : lt x z = true
            · simp [hxz]
            · have hxz2 : lt x z = false := by
                cases h : lt x z
                · rfl
                · exact absurd h hxz
              by_cases hzx : lt z x = true
              · simp [hxz2, hzx] at h2
              · have hzx2 : lt z x = false := by
                  cases h : lt z x
                  · rfl
                  · exact absurd h hzx
                simp only [hxz2, hzx2, Bool.false_eq_true, if_false, ite_false] at h2 ⊢
                exact ih ys zs h1 h2

lemma charLt_strictTotal : StrictTotal (fun c d : Char => decide (c < d)) := by
  refine ⟨?_, ?_, ?_⟩
  · intro x y h
    simp only [decide_eq_true_eq] at h
    simp [lt_asymm h]
  · intro x y h1 h2
    simp only [decide_eq_false_iff_not, not_lt] at h1 h2
    exact le_antisymm h2 h1
  · intro x y z h1 h2
    simp only [decide_eq_true_eq] at h1 h2 ⊢
    exact lt_trans h1 h2

lemma lexLt_strictTotal : StrictTotal lexLt :=
  ⟨seqLt_asymm charLt_strictTotal, seqLt_conn charLt_strictTotal,
    seqLt_trans charLt_strictTotal⟩

lemma seqLt_nlt_total {lt : α → α → Bool} (hst : StrictTotal lt) (a b : List α) :
    seqLt lt b a = false ∨ seqLt lt a b = false := by
  by_cases h : seqLt lt b a = true
  · right
    exact seqLt_asymm hst b a h
  · left
    cases h2 : seqLt lt b a
    · rfl
    · exact absurd h2 h

lemma seqLt_nlt_trans {lt : α → α → Bool} (hst : StrictTotal lt) {a b c : List α}
    (hba : seqLt lt b a = false) (hcb : seqLt lt c b = false) : seqLt lt c a = false := by
  cases hca : seqLt lt c a with
  | false => rfl
  | true =>
    by_cases hbc : seqLt lt b c = true
    · have := seqLt_trans hst b c a hbc hca
      rw [this] at hba
      simp at hba
    · have hbc2 : seqLt lt b c = false := by
        cases h : seqLt lt b c
        · rfl
        · exact absurd h hbc
      have : b = c := seqLt_conn hst b c hbc2 hcb
      subst this
      rw [hca] at hba
      simp at hba

lemma lexLe_total (a b : List Char) : (lexLe a b || lexLe b a) = true := by
  unfold lexLe lexLt
  rcases seqLt_nlt_total charLt_strictTotal a b with h | h <;> simp [h]

lemma lexLe_trans {a b c : List Char} (h1 : lexLe a b = true) (h2 : lexLe b c = true) :
    lexLe a c = true := by
  unfold lexLe lexLt at h1 h2 ⊢
  simp only [Bool.not_eq_true'] at h1 h2 ⊢
  exact seqLt_nlt_trans charLt_strictTotal h1 h2

lemma blockLe_total (a b : List Line) : (blockLe a b || blockLe b a) = true := by
  unfold blockLe blockLt
  rcases seqLt_nlt_total lexLt_strictTotal a b with h | h <;> simp [h]

lemma blockLe_trans {a b c : List Line} (h1 : blockLe a b = true) (h2 : blockLe b c = true) :
    blockLe a c = true := by
  unfold blockLe blockLt at h1 h2 ⊢
  simp only [Bool.not_eq_true'] at h1 h2 ⊢
  exact seqLt_nlt_trans lexLt_strictTotal h1 h2

/-! ### The sort model: permutation, sortedness, fixed points -/

lemma pyInsert_perm (le : α → α → Bool) (x : α) :
    ∀ l, (pyInsert le x l).Perm (x :: l) := by
  intro l
  induction l with
  | nil => exact List.Perm.refl _
  | cons y ys ih =>
    by_cases h : le y x = true
    · simp only [pyInsert, h, if_true, ite_true]
      exact (ih.cons y).trans (List.Perm.swap x y ys)
    · have h2 : le y x = false := by
        cases hh : le y x
        · rfl
        · exact absurd hh h
      simp only [pyInsert, h2, Bool.false_eq_true, if_false, ite_false]
      exact List.Perm.refl _

lemma pySortBy_go_perm (le : α → α → Bool) :
    ∀ (l acc : List α), (l.foldl (fun acc x => pyInsert le x acc) acc).Perm (acc ++ l) := by
  intro l
  induction l with
  | nil => intro acc; simp
  | cons x xs ih =>
    intro acc
    have h1 := ih (pyInsert le x acc)
    have h2 : (pyInsert le x acc ++ xs).Perm (acc ++ x :: xs) := by
      have := (pyInsert_perm le x acc).append_right xs
      exact this.trans (List.perm_middle.symm)
    simpa using h1.trans h2

lemma pySortBy_perm (le : α → α → Bool) (l : List α) : (pySortBy le l).Perm l := by
  simpa [pySortBy] using pySortBy_go_perm le l []

lemma pyInsert_pairwise {le : α → α → Bool}
    (htot : ∀ a b, (le a b || le b a) = true)
    (htrans : ∀ {a b c}, le a b = true → le b c = true → le a c = true)
    (x : α) :
    ∀ l, l.Pairwise (fun a b => le a b = true) →
      (pyInsert le x l).Pairwise (fun a b => le a b = true) := by
  intro l
  induction l with
  | nil => intro h; simp [pyInsert]
  | cons y ys ih =>
    intro hp
    rw [List.pairwise_cons] at hp
    obtain ⟨hy, hys⟩ := hp
    by_cases h : le y x = true
    · simp only [pyInsert, h, if_true, ite_true]
      rw [List.pairwise_cons]
      refine ⟨?_, ih hys⟩
      intro z hz
      rcases List.mem_cons.mp ((pyInsert_perm le x ys).mem_iff.mp hz) with rfl | hz2
      · exact h
      · exact hy z hz2
    · have h2 : le y x = false := by
        cases hh : le y x
        · rfl
        · exact absurd hh h
      simp only [pyInsert, h2, Bool.false_eq_true, if_false, ite_false]
      rw [List.pairwise_cons]
      constructor
      · intro z hz
        have hxy : le x y = true := by
          have := htot x y
          rw [h2] at this
          simpa using this
        rcases List.mem_cons.mp hz with rfl | hz2
        · exact hxy
        · exact htrans hxy (hy z hz2)
      · exact List.Pairwise.cons hy hys

lemma pySortBy_pairwise {le : α → α → Bool}
    (htot : ∀ a b, (le a b || le b a) = true)
    (htrans : ∀ {a b c}, le a b = true → le b c = true → le a c = true)
    (l : List α) : (pySortBy le l).Pairwise (fun a b => le a b = true) := by
  suffices h : ∀ (l acc : List α), acc.Pairwise (fun a b => le a b = true) →
      (l.foldl (fun acc x => pyInsert le x acc) acc).Pairwise (fun a b => le a b = true) by
    simpa [pySortBy] using h l [] (by simp)
  intro l
  induction l with
  | nil => intro acc h; simpa using h
  | cons x xs ih =>
    intro acc h
    exact ih (pyInsert le x acc) (pyInsert_pairwise htot htrans x acc h)

lemma pyInsert_of_forall_le {le : α → α → Bool} {x : α} :
    ∀ {l}, (∀ y ∈ l, le y x = true) → pyInsert le x l = l ++ [x] := by
  intro l
  induction l with
  | nil => intro h; rfl
  | cons y ys ih =>
    intro h
    have hy : le y x = true := h y (by simp)
    simp only [pyInsert, hy, if_true, ite_true, List.cons_append]
    rw [ih (fun z hz => h z (by simp [hz]))]

lemma pySortBy_of_pairwise {le : α → α → Bool} :
    ∀ (l acc : List α), (acc ++ l).Pairwise (fun a b => le a b = true) →
      l.foldl (fun acc x => pyInsert le x acc) acc = acc ++ l := by
  intro l
  induction l with
  | nil => intro acc h; simp
  | cons x xs ih =>
    intro acc h
    have hacc : ∀ y ∈ acc, le y x = true := by
      intro y hy
      have := (List.pairwise_append.mp h).2.2
      exact this y hy x (by simp)
    have step : pyInsert le x acc = acc ++ [x] := pyInsert_of_forall_le hacc
    simp only [List.foldl_cons, step]
    have h2 : ((acc ++ [x]) ++ xs).Pairwise (fun a b => le a b = true) := by
      simpa [List.append_assoc] using h
    simpa [List.append_assoc] using ih (acc ++ [x]) h2

lemma pySortBy_sorted_fixed {le : α → α → Bool} {l : List α}
    (h : l.Pairwise (fun a b => le a b = true)) : pySortBy le l = l := by
  simpa [pySortBy] using pySortBy_of_pairwise l [] (by simpa using h)

/-! ### Indexing and slicing helpers -/

lemma pyGet_nat (l : List Line) (i : Nat) : pyGet l (i : Int) = l.get? i := by
  simp [pyGet]

lemma pyGet_mem {l : List Line} {i : Int} {x : Line} (h : pyGet l i = some x) : x ∈ l := by
  unfold pyGet at h
  split at h
  · exact List.get?_mem h
  · split at h
    · exact List.get?_mem h
    · exact absurd h (by simp)

lemma pySlice_mem {l : List Line} {a b : Int} {x : Line} (h : x ∈ pySlice l a b) : x ∈ l := by
  unfold pySlice at h
  exact List.mem_of_mem_drop (List.mem_of_mem_take h)

/-- `lines[start:start+count]` in the regular case: the bounds are in range,
so the slice is exactly the `count` lines after `start`. -/
lemma pySlice_exact (l : List Line) (i c : Nat) (h : i + c ≤ l.length) :
    pySlice l (i : Int) ((i : Int) + (c : Int)) = (l.drop i).take c := by
  unfold pySlice
  have h1 : ¬((i : Int) < 0) := by omega
  have h2 : ¬((i : Int) + (c : Int) < 0) := by omega
  have h3 : min (i : Int) (l.length : Int) = (i : Int) := by omega
  have h4 : min ((i : Int) + (c : Int)) (l.length : Int) = (i : Int) + (c : Int) := by omega
  simp only [if_neg h1, if_neg h2, h3, h4]
  congr 1
  omega

/-- `lines[start:start+count]` when the count overruns the end of file: the
slice is silently clamped to whatever lines remain. -/
lemma pySlice_clamped (l : List Line) (i : Nat) (c : Int) (hc : (l.length : Int) ≤ (i : Int) + c)
    (hi : i ≤ l.length) : pySlice l (i : Int) ((i : Int) + c) = l.drop i := by
  unfold pySlice
  have h1 : ¬((i : Int) < 0) := by omega
  have h2 : ¬((i : Int) + c < 0) := by omega
  have h3 : min (i : Int) (l.length : Int) = (i : Int) := by omega
  have h4 : min ((i : Int) + c) (l.length : Int) = (l.length : Int) := by omega
  simp only [if_neg h1, if_neg h2, h3, h4]
  apply List.take_of_length_le
  simp only [List.length_drop]
  omega

/-! ### Dictionary helpers -/

lemma dictLookup_eq_none_iff (k : Line) :
    ∀ d : AtomDict, dictLookup k d = none ↔ k ∉ d.map Prod.fst := by
  intro d
  induction d with
  | nil => simp [dictLookup]
  | cons kv d' ih =>
    obtain ⟨k2, v⟩ := kv
    by_cases h : k2 = k
    · subst h
      simp [dictLookup]
    · simp [dictLookup, h, ih, Ne.symm h]

lemma dictLookup_append_left {k : Line} {d1 : AtomDict} (d2 : AtomDict) {v : Block}
    (h : dictLookup k d1 = some v) : dictLookup k (d1 ++ d2) = some v := by
  induction d1 with
  | nil => simp [dictLookup] at h
  | cons kv d' ih =>
    obtain ⟨k2, v2⟩ := kv
    by_cases hk : k2 = k
    · subst hk
      simp_all [dictLookup]
    · simp only [dictLookup, hk, if_false, ite_false] at h ⊢
      exact ih h

lemma dictLookup_append_right {k : Line} {d1 : AtomDict} (d2 : AtomDict)
    (h : dictLookup k d1 = none) : dictLookup k (d1 ++ d2) = dictLookup k d2 := by
  induction d1 with
  | nil => simp
  | cons kv d' ih =>
    obtain ⟨k2, v2⟩ := kv
    by_cases hk : k2 = k
    · subst hk
      simp [dictLookup] at h
    · simp only [List.cons_append, dictLookup, hk, if_false, ite_false] at h ⊢
      exact ih h

lemma dictUpdate_mem {k : Line} {v : Block} :
    ∀ {d : AtomDict} {kv : Line × Block}, kv ∈ dictUpdate k v d → kv.2 = v ∨ kv ∈ d := by
  intro d
  induction d with
  | nil => intro kv h; simp [dictUpdate] at h
  | cons p d' ih =>
    intro kv h
    obtain ⟨k2, v2⟩ := p
    by_cases hk : k2 = k
    · subst hk
      simp only [dictUpdate, if_pos rfl] at h
      rcases List.mem_cons.mp h with rfl | h2
      · left; rfl
      · right; exact List.mem_cons_of_mem _ h2
    · simp only [dictUpdate, hk, if_false, ite_false] at h
      rcases List.mem_cons.mp h with rfl | h2
      · right; exact List.mem_cons_self _ _
      · rcases ih h2 with h3 | h3
        · left; exact h3
        · right; exact List.mem_cons_of_mem _ h3

lemma dictLookup_mem {k : Line} : ∀ {d : AtomDict} {v : Block},
    dictLookup k d = some v → (k, v) ∈ d := by
  intro d
  induction d with
  | nil => intro v h; simp [dictLookup] at h
  | cons p d' ih =>
    intro v h
    obtain ⟨k2, v2⟩ := p
    by_cases hk : k2 = k
    · subst hk
      have hv : v2 = v := by simpa [dictLookup] using h
      subst hv
      exact List.mem_cons_self _ _
    · simp only [dictLookup, hk, if_false, ite_false] at h
      exact List.mem_cons_of_mem _ (ih h)

/-! ### The header rebuild -/

/-- The source's three-way `if/elif/else` on the remainder's length is the
spec's right-justification rule. -/
lemma updateHeader_eq (h : Line) (prev total : Int) :
    updateHeader h prev total
      = h.take 27 ++ rightJustify10 (pyReplace (h.drop 27) (pyStr prev) (pyStr total)) := by
  unfold updateHeader rightJustify10
  set u := pyReplace (h.drop 27) (pyStr prev) (pyStr total) with hu
  by_cases h1 : u.length > 10
  · rw [if_pos h1, if_neg (by omega)]
  · rw [if_neg h1]
    by_cases h2 : u.length < 10
    · rw [if_pos h2, if_pos (by omega)]
      simp [List.append_assoc]
    · rw [if_neg h2, if_pos (by omega)]
      have : 10 - u.length = 0 := by omega
      simp [this]

lemma rightJustify10_length (s : List Char) : (rightJustify10 s).length = 10 := by
  unfold rightJustify10
  by_cases h : s.length ≤ 10
  · rw [if_pos h]
    simp only [List.length_append, List.length_replicate]
    omega
  · rw [if_neg h]
    simp only [List.length_drop]
    omega

lemma updateHeader_take27 {h : Line} (hl : 27 ≤ h.length) (prev total : Int) :
    (updateHeader h prev total).take 27 = h.take 27 ∧
      (updateHeader h prev total).length = 37 := by
  rw [updateHeader_eq]
  have hlen : (h.take 27).length = 27 := by
    rw [List.length_take]
    omega
  constructor
  · rw [List.take_append_of_le_length (by omega), List.take_take]
    simp
  · rw [List.length_append, hlen, rightJustify10_length]

/-- `rightJustify10` on a canonical remainder `spaces ++ y` with `y` at most
10 characters: however many spaces were there, exactly `10 - y.length`
spaces remain (truncation can only remove spaces, padding only adds them). -/
lemma rightJustify10_replicate_space (m : Nat) (y : List Char) (hy : y.length ≤ 10) :
    rightJustify10 (List.replicate m ' ' ++ y) = List.replicate (10 - y.length) ' ' ++ y := by
  unfold rightJustify10
  simp only [List.length_append, List.length_replicate]
  by_cases h : m + y.length ≤ 10
  · rw [if_pos h]
    rw [← List.append_assoc, ← List.replicate_add]
    have he : 10 - (m + y.length) + m = 10 - y.length := by omega
    rw [he]
  · rw [if_neg h]
    have hsplit : List.replicate m ' ' = List.replicate (m + y.length - 10) ' '
        ++ List.replicate (m - (m + y.length - 10)) ' ' := by
      rw [← List.replicate_add]
      congr 1
      omega
    rw [hsplit, List.append_assoc, List.drop_left' (by simp)]
    have he : m - (m + y.length - 10) = 10 - y.length := by omega
    rw [he]

/-- Unfolding equation for `mergeBlock` on a nonempty stored block. -/
lemma mergeBlock_cons (h0 : Line) (rest : List Line) (c : Int) (splice : List Line) :
    mergeBlock (h0 :: rest) c splice
      = match (splitWs h0).get? 4 with
        | none => Except.error ParseError.indexError
        | some tok =>
          match pyInt? tok with
          | none => Except.error ParseError.valueError
          | some prev =>
            Except.ok ((((updateHeader h0 prev (c + prev) :: rest) ++ splice).take 2)
              ++ pySortBy lexLe (((updateHeader h0 prev (c + prev) :: rest) ++ splice).drop 2)) :=
  rfl

/-- The merge branch succeeds exactly when the stored header's token 4
parses, and then produces the rebuilt header, the kept key line and the
re-sorted data. -/
lemma mergeBlock_ok_iff {h0 s0 : Line} {t : List Line} {c : Int} {splice : List Line}
    {nb : Block} :
    mergeBlock (h0 :: s0 :: t) c splice = Except.ok nb ↔
      ∃ tok prev, (splitWs h0).get? 4 = some tok ∧ pyInt? tok = some prev ∧
        nb = updateHeader h0 prev (c + prev) :: s0 :: pySortBy lexLe (t ++ splice) := by
  constructor
  · intro h
    rw [mergeBlock_cons] at h
    split at h
    · exact absurd h (by simp)
    · rename_i tok htok
      split at h
      · exact absurd h (by simp)
      · rename_i prev hint
        simp only [Except.ok.injEq] at h
        refine ⟨tok, prev, htok, hint, ?_⟩
        rw [← h]
        simp
  · rintro ⟨tok, prev, htok, hint, rfl⟩
    rw [mergeBlock_cons, htok]
    simp only [hint]
    simp

/-- The header rebuild on a canonical header: the count text is replaced and
re-justified, every other character of the remainder (the spaces and the
newline) survives, and the result is again a canonical header. -/
lemma updateHeader_headerWithCount (pre : Line) (m old totalN : Nat)
    (hpre : pre.length = 27) (hlen : (natDigits totalN).length ≤ 9) :
    updateHeader (headerWithCount pre m old) (old : Int) (totalN : Int)
      = headerWithCount pre (9 - (natDigits totalN).length) totalN := by
  rw [updateHeader_eq, pyStr_coe_nat, pyStr_coe_nat]
  unfold headerWithCount
  simp only [List.append_assoc]
  rw [List.take_left' hpre, List.drop_left' hpre]
  have hrepl := pyReplace_canonical_tail m old totalN
  simp only [List.append_assoc] at hrepl
  rw [hrepl, rightJustify10_replicate_space m (natDigits totalN ++ ['\n'])
    (by simp only [List.length_append, List.length_cons, List.length_nil]; omega)]
  simp only [List.length_append, List.length_cons, List.length_nil]
  have he : 10 - ((natDigits totalN).length + 1) = 9 - (natDigits totalN).length := by omega
  rw [he]

/-! ### Unfolding the block-walk loop -/

lemma walk_stop (lines : List Line) (fuel : Nat) (fl : Int) (dict : AtomDict)
    (h : ¬fl < (lines.length : Int)) :
    walk lines (fuel + 1) fl dict = some (Except.ok dict) := by
  unfold walk
  rw [if_neg h]

/-- One iteration of the loop at 0-based header index `i` (the source's
`file_line` is `i + 1`), when header, key and count all parse. -/
lemma walk_step (lines : List Line) (fuel : Nat) (i : Nat) (dict : AtomDict)
    (hfl : (i : Int) + 1 < (lines.length : Int))
    {header sym : Line} (hh : lines.get? i = some header) (hk : lines.get? (i + 1) = some sym)
    {tok : List Char} (htok : (splitWs header).get? 4 = some tok)
    {c : Int} (hc : pyInt? tok = some c) :
    walk lines (fuel + 1) ((i : Int) + 1) dict
      = match dictLookup sym dict with
        | some blk =>
          match mergeBlock blk c (pySlice lines ((i : Int) + 2) ((i : Int) + 2 + c)) with
          | Except.error e => some (Except.error e)
          | Except.ok nb => walk lines fuel ((i : Int) + 2 + c + 1) (dictUpdate sym nb dict)
        | none => walk lines fuel ((i : Int) + 2 + c + 1)
            (dict ++ [(sym, header :: sym :: pySlice lines ((i : Int) + 2) ((i : Int) + 2 + c))]) := by
  conv_lhs => rw [walk]
  rw [if_pos hfl]
  have e1 : (i : Int) + 1 - 1 = (i : Int) := by omega
  have e2 : pyGet lines (i : Int) = some header := by rw [pyGet_nat]; exact hh
  have e3 : pyGet lines ((i : Int) + 1) = some sym := by
    have e : (i : Int) + 1 = ((i + 1 : Nat) : Int) := by omega
    rw [e, pyGet_nat]
    exact hk
  simp only [e1, e2, e3, htok, hc]

/-! ### Reading a well-formed file -/

lemma get?_of_drop_eq {l : List Line} {i : Nat} {x : Line} {rest : List Line}
    (h : l.drop i = x :: rest) : l.get? i = some x := by
  have h0 : (l.drop i).get? 0 = some x := by rw [h]; rfl
  rw [List.get?_drop] at h0
  simpa using h0

lemma specReadBlocks_eq_some_nil {fuel : Nat} {s : List Line}
    (h : specReadBlocks fuel s = some []) : s = [] := by
  match fuel, s with
  | 0, _ => simp [specReadBlocks] at h
  | f + 1, [] => rfl
  | f + 1, [x] => simp [specReadBlocks] at h
  | f + 1, h0 :: k :: rest =>
    unfold specReadBlocks at h
    split at h
    · exact absurd h (by simp)
    · split at h
      · exact absurd h (by simp)
      · split at h
        · split at h
          · exact absurd h (by simp)
          · simp at h
        · exact absurd h (by simp)

lemma specReadBlocks_cons_inv {fuel : Nat} {s : List Line}
    {b : Line × Line × List Line} {bs : List (Line × Line × List Line)}
    (h : specReadBlocks fuel s = some (b :: bs)) :
    ∃ (f2 : Nat) (h0 k : Line) (rest : List Line) (tok : List Char) (c : Int),
      fuel = f2 + 1 ∧ s = h0 :: k :: rest ∧
      (splitWs h0).get? 4 = some tok ∧ pyInt? tok = some c ∧
      0 ≤ c ∧ c.toNat ≤ rest.length ∧
      b = (h0, k, rest.take c.toNat) ∧
      specReadBlocks f2 (rest.drop c.toNat) = some bs := by
  match fuel, s with
  | 0, _ => simp [specReadBlocks] at h
  | f + 1, [] => simp [specReadBlocks] at h
  | f + 1, [x] => simp [specReadBlocks] at h
  | f + 1, h0 :: k :: rest =>
    unfold specReadBlocks at h
    split at h
    · exact absurd h (by simp)
    · rename_i tok htok
      split at h
      · exact absurd h (by simp)
      · rename_i c hc
        split at h
        · rename_i hcond
          split at h
          · exact absurd h (by simp)
          · rename_i bs2 hbs2
            simp only [Option.some.injEq, List.cons.injEq] at h
            exact ⟨f, h0, k, rest, tok, c, rfl, rfl, htok, hc, hcond.1, hcond.2,
              h.1.symm, h.2 ▸ hbs2⟩
        · exact absurd h (by simp)

lemma specReadBlocks_length_le :
    ∀ {fuel : Nat} {s : List Line} {bs : List (Line × Line × List Line)},
      specReadBlocks fuel s = some bs → 2 * bs.length ≤ s.length := by
  intro fuel
  induction fuel with
  | zero => intro s bs h; simp [specReadBlocks] at h
  | succ f ih =>
    intro s bs h
    cases bs with
    | nil => simp
    | cons b bs2 =>
      obtain ⟨f2, h0, k, rest, tok, c, hf, hs, _, _, _, hle, _, hrec⟩ :=
        specReadBlocks_cons_inv h
      obtain rfl : f2 = f := by omega
      have := ih hrec
      have hdl : (rest.drop c.toNat).length = rest.length - c.toNat := by
        simp
      subst hs
      simp only [List.length_cons]
      omega

/-- Accumulation over a file whose keys are all fresh and pairwise distinct:
every block is stored exactly as read, appended in file order, and nothing
already in the dictionary changes. -/
lemma walk_spec_fresh :
    ∀ (bs : List (Line × Line × List Line)) (fuelS : Nat) (lines : List Line) (i : Nat)
      (dict : AtomDict) (fuelW : Nat),
      specReadBlocks fuelS (lines.drop i) = some bs →
      (∀ b ∈ bs, dictLookup b.2.1 dict = none) →
      ((bs.map fun b => b.2.1).Nodup) →
      bs.length < fuelW →
      walk lines fuelW ((i : Int) + 1) dict
        = some (Except.ok (dict ++ bs.map fun b => (b.2.1, blockOf b))) := by
  intro bs
  induction bs with
  | nil =>
    intro fuelS lines i dict fuelW hspec _ _ hfuel
    have hnil : lines.drop i = [] := specReadBlocks_eq_some_nil hspec
    have hlen : lines.length ≤ i := by
      have := congrArg List.length hnil
      simp only [List.length_drop, List.length_nil] at this
      omega
    match fuelW, hfuel with
    | w + 1, _ =>
      rw [walk_stop lines w _ dict (by push_cast; omega)]
      simp
  | cons b bs2 ih =>
    intro fuelS lines i dict fuelW hspec hfresh hnd hfuel
    obtain ⟨f2, h0, k, rest, tok, c, hf, hs, htok, hc, hc0, hcle, hb, hrec⟩ :=
      specReadBlocks_cons_inv hspec
    have hdroplen : (lines.drop i).length = lines.length - i := by simp
    have hrestlen : rest.length = lines.length - i - 2 := by
      rw [hs] at hdroplen
      simp only [List.length_cons] at hdroplen
      omega
    have hilen : i + 2 ≤ lines.length := by
      have : (lines.drop i).length ≥ 2 := by rw [hs]; simp
      simp only [List.length_drop] at this
      omega
    have hh : lines.get? i = some h0 := get?_of_drop_eq hs
    have hdrop1 : lines.drop (i + 1) = k :: rest := by
      have : lines.drop (i + 1) = (lines.drop i).drop 1 := by
        rw [List.drop_drop]
      rw [this, hs]
      rfl
    have hk : lines.get? (i + 1) = some k := get?_of_drop_eq hdrop1
    have hdrop2 : lines.drop (i + 2) = rest := by
      have : lines.drop (i + 2) = (lines.drop i).drop 2 := by
        rw [List.drop_drop]
      rw [this, hs]
      rfl
    match fuelW, hfuel with
    | w + 1, hf2 =>
      have hfl : (i : Int) + 1 < (lines.length : Int) := by push_cast; omega
      rw [walk_step lines w i dict hfl hh hk htok hc]
      have hfreshb : dictLookup k dict = none := by
        have := hfresh b (by simp)
        rw [hb] at this
        exact this
      simp only [hfreshb]
      have hsplice : pySlice lines ((i : Int) + 2) ((i : Int) + 2 + c)
          = rest.take c.toNat := by
        have e2 : (i : Int) + 2 + c = ((i + 2 : Nat) : Int) + ((c.toNat : Nat) : Int) := by
          push_cast; omega
        have e1 : (i : Int) + 2 = ((i + 2 : Nat) : Int) := by push_cast; omega
        rw [e2, e1, pySlice_exact lines (i + 2) c.toNat (by omega), hdrop2]
      rw [hsplice]
      have hstep : (i : Int) + 2 + c + 1 = (((i + 2 + c.toNat : Nat)) : Int) + 1 := by
        push_cast; omega
      rw [hstep]
      have hdropnext : lines.drop (i + 2 + c.toNat) = rest.drop c.toNat := by
        have he : lines.drop (i + 2 + c.toNat) = (lines.drop (i + 2)).drop c.toNat := by
          rw [List.drop_drop]
        rw [he, hdrop2]
      have hfresh2 : ∀ b2 ∈ bs2,
          dictLookup b2.2.1 (dict ++ [(k, h0 :: k :: rest.take c.toNat)]) = none := by
        intro b2 hb2
        rw [dictLookup_append_right _ (hfresh b2 (by simp [hb2]))]
        have hne : k ≠ b2.2.1 := by
          intro e
          rw [hb] at hnd
          simp only [List.map_cons, List.nodup_cons] at hnd
          exact hnd.1 (e ▸ List.mem_map_of_mem (fun b => b.2.1) hb2)
        simp [dictLookup, hne]
      have hnd2 : (bs2.map fun b => b.2.1).Nodup := by
        simp only [List.map_cons, List.nodup_cons] at hnd
        exact hnd.2
      have := ih f2 lines (i + 2 + c.toNat)
        (dict ++ [(k, h0 :: k :: rest.take c.toNat)]) w
        (by rw [hdropnext]; exact hrec) hfresh2 hnd2
        (by simp only [List.length_cons] at hf2; omega)
      rw [this, hb]
      simp [blockOf, List.append_assoc]

/-! ### The accumulator invariant -/

/-- Every line of a merged block is the rebuilt header, a kept line of the
stored block, or an incoming data line. -/
lemma mergeBlock_mem {blk : Block} {c : Int} {splice : List Line} {nb : Block}
    {b0 : Line} {brest : List Line} (hblk : blk = b0 :: brest)
    (h : mergeBlock blk c splice = Except.ok nb) :
    ∃ prev, nb.head? = some (updateHeader b0 prev (c + prev)) ∧
      ∀ l ∈ nb, l = updateHeader b0 prev (c + prev) ∨ l ∈ brest ∨ l ∈ splice := by
  subst hblk
  rw [mergeBlock_cons] at h
  split at h
  · exact absurd h (by simp)
  · split at h
    · exact absurd h (by simp)
    · rename_i prev hint
      simp only [Except.ok.injEq] at h
      refine ⟨prev, ?_, ?_⟩
      · rw [← h]
        simp
      · intro l hl
        rw [← h] at hl
        rcases List.mem_append.mp hl with h2 | h2
        · have h3 : l ∈ updateHeader b0 prev (c + prev) :: (brest ++ splice) := by
            have := List.take_subset 2 ((updateHeader b0 prev (c + prev) :: brest) ++ splice)
            apply this
            simpa using h2
          rcases List.mem_cons.mp h3 with h4 | h4
          · left; exact h4
          · rcases List.mem_append.mp h4 with h5 | h5
            · right; left; exact h5
            · right; right; exact h5
        · have h3 : l ∈ ((updateHeader b0 prev (c + prev) :: brest) ++ splice).drop 2 :=
            (pySortBy_perm lexLe _).mem_iff.mp h2
          have h4 : l ∈ (updateHeader b0 prev (c + prev) :: brest) ++ splice :=
            List.drop_subset 2 _ h3
          rcases List.mem_append.mp h4 with h5 | h5
          · rcases List.mem_cons.mp h5 with h6 | h6
            · left; exact h6
            · right; left; exact h6
          · right; right; exact h5

lemma walk_goodDict {pool : List Line} :
    ∀ (fuelW : Nat) (lines : List Line) (fl : Int) (dict d2 : AtomDict),
      (∀ l ∈ lines, l ∈ pool) → (∀ l ∈ pool, 27 ≤ l.length) →
      goodDict pool dict →
      walk lines fuelW fl dict = some (Except.ok d2) →
      goodDict pool d2 := by
  intro fuelW
  induction fuelW with
  | zero =>
    intro lines fl dict d2 _ _ _ hw
    simp [walk] at hw
  | succ w ih =>
    intro lines fl dict d2 hsub hpool hdict hw
    rw [walk] at hw
    by_cases hfl : fl < (lines.length : Int)
    · rw [if_pos hfl] at hw
      simp only at hw
      split at hw
      · rename_i header sym hget1 hget2
        split at hw
        · simp at hw
        · rename_i tok htok
          split at hw
          · simp at hw
          · rename_i c hc
            split at hw
            · rename_i blk hlook
              split at hw
              · simp at hw
              · rename_i nb hmerge
                refine ih lines _ _ d2 hsub hpool ?_ hw
                have hblkmem : (sym, blk) ∈ dict := dictLookup_mem hlook
                obtain ⟨htr, hhead⟩ := hdict (sym, blk) hblkmem
                obtain ⟨b0, brest, rfl⟩ : ∃ b0 brest, blk = b0 :: brest := by
                  cases blk with
                  | nil => exact absurd hmerge (by simp [mergeBlock])
                  | cons b0 brest => exact ⟨b0, brest, rfl⟩
                obtain ⟨prev, hnbhead, hnbmem⟩ := mergeBlock_mem rfl hmerge
                have hb0len : 27 ≤ b0.length := hhead b0 rfl
                have huh := updateHeader_take27 hb0len prev (c + prev)
                have huhtr : traceable pool (updateHeader b0 prev (c + prev)) := by
                  rcases htr b0 (by simp) with hmem | ⟨hp, hmemp, heq⟩
                  · exact Or.inr ⟨b0, hmem, huh.1⟩
                  · exact Or.inr ⟨hp, hmemp, by rw [huh.1, heq]⟩
                intro kv hkv
                rcases dictUpdate_mem hkv with hv | hold
                · constructor
                  · intro l hl
                    rw [hv] at hl
                    rcases hnbmem l hl with rfl | hl2 | hl3
                    · exact huhtr
                    · exact htr l (by simp [hl2])
                    · exact Or.inl (hsub _ (pySlice_mem hl3))
                  · intro h hh
                    rw [hv, hnbhead] at hh
                    have : h = updateHeader b0 prev (c + prev) := by
                      simpa using hh.symm
                    subst this
                    omega
                · exact hdict kv hold
            · rename_i hlook
              refine ih lines _ _ d2 hsub hpool ?_ hw
              intro kv hkv
              rcases List.mem_append.mp hkv with h2 | h2
              · exact hdict kv h2
              · have hkv2 : kv = (sym, header :: sym ::
                    pySlice lines (fl - 1 + 2) (fl - 1 + 2 + c)) := by simpa using h2
                subst hkv2
                constructor
                · intro l hl
                  rcases List.mem_cons.mp hl with rfl | hl2
                  · exact Or.inl (hsub _ (pyGet_mem hget1))
                  · rcases List.mem_cons.mp hl2 with rfl | hl3
                    · exact Or.inl (hsub _ (pyGet_mem hget2))
                    · exact Or.inl (hsub _ (pySlice_mem hl3))
                · intro h hh
                  simp only [List.head?_cons, Option.some.injEq] at hh
                  subst hh
                  exact hpool _ (hsub _ (pyGet_mem hget1))
      · simp at hw
    · rw [if_neg hfl] at hw
      simp only [Option.some.injEq, Except.ok.injEq] at hw
      subst hw
      exact hdict

lemma runFiles_goodDict {pool : List Line} :
    ∀ (files : List (List Line)) (dict d2 : AtomDict),
      (∀ f ∈ files, ∀ l ∈ f, l ∈ pool) → (∀ l ∈ pool, 27 ≤ l.length) →
      goodDict pool dict →
      runFiles files dict = some (Except.ok d2) →
      goodDict pool d2 := by
  intro files
  induction files with
  | nil =>
    intro dict d2 _ _ hdict hr
    simp only [runFiles, Option.some.injEq, Except.ok.injEq] at hr
    subst hr
    exact hdict
  | cons f fs ih =>
    intro dict d2 hsub hpool hdict hr
    unfold runFiles at hr
    split at hr
    · exact absurd hr (by simp)
    · exact absurd hr (by simp)
    · rename_i dmid hmid
      exact ih dmid d2 (fun g hg => hsub g (by simp [hg])) hpool
        (walk_goodDict (f.length + 1) f 1 dict dmid
          (fun l hl => hsub f (by simp) l hl) hpool hdict hmid) hr

lemma turboSort_of_runFiles {files : List (List Line)} {d2 : AtomDict}
    (h : runFiles files [] = some (Except.ok d2)) :
    turboSort files
      = some (Except.ok ((pySortBy blockLe (d2.map (fun p => p.2))).flatten)) := by
  unfold turboSort
  rw [h]

lemma turboSort_ok_inv {files : List (List Line)} {out : List Line}
    (h : turboSort files = some (Except.ok out)) :
    ∃ d2, runFiles files [] = some (Except.ok d2) ∧
      out = (pySortBy blockLe (d2.map (fun p => p.2))).flatten := by
  unfold turboSort at h
  split at h
  · exact absurd h (by simp)
  · exact absurd h (by simp)
  · rename_i d2 hd2
    simp only [Option.some.injEq, Except.ok.injEq] at h
    exact ⟨d2, hd2, h.symm⟩

/-! ### More replacement shapes -/

lemma replaceGo_exact_end (p r : List Char) (hp : p ≠ []) (fuel : Nat)
    (h : p.length < fuel) : replaceGo p r fuel p = r := by
  have h2 := replaceGo_match p r hp fuel [] (by simp only [List.length_nil]; omega)
  rw [List.append_nil] at h2
  rw [replaceGo_nil _ _ _ (by omega)] at h2
  simpa using h2

lemma pyReplace_spaces_digits (m old new : Nat) :
    pyReplace (List.replicate m ' ' ++ natDigits old) (natDigits old) (natDigits new)
      = List.replicate m ' ' ++ natDigits new := by
  have hp : natDigits old ≠ [] := natDigits_ne_nil old
  unfold pyReplace
  rw [if_neg (by simp [List.isEmpty_iff, hp])]
  rw [replaceGo_spaces _ _ hp (natDigits_head_ne_space old) m _ _
    (by simp only [List.length_append, List.length_replicate]; omega)]
  rw [replaceGo_exact_end _ _ hp _
    (by simp only [List.length_append, List.length_replicate]; omega)]

lemma replaceGo_all_spaces (p r : List Char) (hp : p ≠ []) (hc : p.head? ≠ some ' ')
    (fuel e : Nat) (h : e < fuel) :
    replaceGo p r fuel (List.replicate e ' ') = List.replicate e ' ' := by
  have h2 := replaceGo_spaces p r hp hc e fuel [] (by simp only [List.length_nil]; omega)
  rw [List.append_nil] at h2
  rw [replaceGo_nil _ _ _ (by omega)] at h2
  simpa using h2

lemma pyReplace_two_occurrences (a b e old new : Nat) :
    pyReplace (List.replicate a ' ' ++ natDigits old ++ List.replicate b ' '
        ++ natDigits old ++ List.replicate e ' ')
      (natDigits old) (natDigits new)
      = List.replicate a ' ' ++ natDigits new ++ List.replicate b ' '
        ++ natDigits new ++ List.replicate e ' ' := by
  have hp : natDigits old ≠ [] := natDigits_ne_nil old
  unfold pyReplace
  rw [if_neg (by simp [List.isEmpty_iff, hp])]
  simp only [List.append_assoc]
  rw [replaceGo_spaces _ _ hp (natDigits_head_ne_space old) a _ _
    (by simp only [List.length_append, List.length_replicate]; omega)]
  rw [replaceGo_match _ _ hp _ _
    (by simp only [List.length_append, List.length_replicate]; omega)]
  rw [replaceGo_spaces _ _ hp (natDigits_head_ne_space old) b _ _
    (by simp only [List.length_append, List.length_replicate]; omega)]
  rw [replaceGo_match _ _ hp _ _
    (by simp only [List.length_append, List.length_replicate]; omega)]
  rw [replaceGo_all_spaces _ _ hp (natDigits_head_ne_space old) _ e
    (by simp only [List.length_append, List.length_replicate]; omega)]

lemma seqLt_irrefl {lt : α → α → Bool} (hst : StrictTotal lt) (a : List α) :
    seqLt lt a a = false := by
  cases h : seqLt lt a a with
  | false => rfl
  | true =>
    have h2 := seqLt_asymm hst a a h
    rw [h] at h2
    simp at h2

lemma seqLt_cons (lt : α → α → Bool) (x y : α) (xs ys : List α) :
    seqLt lt (x :: xs) (y :: ys)
      = if lt x y then true else if lt y x then false else seqLt lt xs ys := rfl

/-! ## The claims -/

/-- C2: for every merge, the rebuilt header is the stored header's first 27
characters followed by the count-substituted remainder re-right-justified
to exactly 10 characters — truncated from the left when longer than 10,
left-padded with spaces when shorter — and when the summed count's digit
string itself exceeds 10 characters the trailing field is that digit
string with its leading characters dropped. -/
theorem C2_header_rejustification :
    (∀ (h : Line) (prev total : Int),
      updateHeader h prev total
        = h.take 27 ++ rightJustify10 (pyReplace (h.drop 27) (pyStr prev) (pyStr total))) ∧
    (∀ s : List Char, (rightJustify10 s).length = 10) ∧
    (∀ s : List Char, s.length ≤ 10 →
      rightJustify10 s = List.replicate (10 - s.length) ' ' ++ s) ∧
    (∀ s : List Char, 10 < s.length → rightJustify10 s = s.drop (s.length - 10)) ∧
    (∀ (h : Line) (m prev total : Nat),
      h.drop 27 = List.replicate m ' ' ++ natDigits prev →
      10 < (natDigits total).length →
      updateHeader h (prev : Int) (total : Int)
        = h.take 27 ++ (natDigits total).drop ((natDigits total).length - 10)) := by
  refine ⟨updateHeader_eq, rightJustify10_length, ?_, ?_, ?_⟩
  · intro s hs
    unfold rightJustify10
    rw [if_pos hs]
  · intro s hs
    unfold rightJustify10
    rw [if_neg (by omega)]
  · intro h m prev total hdrop hbig
    rw [updateHeader_eq, pyStr_coe_nat, pyStr_coe_nat, hdrop, pyReplace_spaces_digits]
    congr 1
    unfold rightJustify10
    rw [if_neg (by simp only [List.length_append, List.length_replicate]; omega)]
    simp only [List.length_append, List.length_replicate]
    have he : m + (natDigits total).length - 10
        = m + ((natDigits total).length - 10) := by omega
    have key := @List.drop_append Char (List.replicate m ' ') (natDigits total)
      ((natDigits total).length - 10)
    rw [List.length_replicate] at key
    rw [he, key]

/-- C2 witness: the general theorem applied at a concrete header whose
summed count has 11 digits. -/
theorem C2_header_rejustification_witness :
    updateHeader (("123456789012345678901234567   7" : String).data) (7 : Nat) ((20000000000 : Nat))
      = (("123456789012345678901234567" : String).data)
        ++ (natDigits 20000000000).drop ((natDigits 20000000000).length - 10) := by
  have happ := C2_header_rejustification.2.2.2.2
    (("123456789012345678901234567   7" : String).data) 3 7 20000000000 (by decide) (by decide)
  have e1 : (("123456789012345678901234567   7" : String).data).take 27
      = ("123456789012345678901234567" : String).data := by decide
  rw [e1] at happ
  exact happ

/-- C3: after every merge of two blocks with the same element key, the
block's entire accumulated data-line list equals the sort of the whole
combined list (previously stored lines plus newly appended lines), is in
lexicographic order, and is a permutation of the combined lines — the sort
is reapplied to everything, not only to the newly appended lines. -/
theorem C3_merge_resorts_whole_list (h0 s0 : Line) (t : List Line) (c : Int)
    (splice : List Line) (nb : Block)
    (hmerge : mergeBlock (h0 :: s0 :: t) c splice = Except.ok nb) :
    nb.drop 2 = pySortBy lexLe (t ++ splice) ∧
    (nb.drop 2).Pairwise (fun a b => lexLe a b = true) ∧
    (nb.drop 2).Perm (t ++ splice) := by
  obtain ⟨tok, prev, htok, hint, rfl⟩ := mergeBlock_ok_iff.mp hmerge
  have hd : (updateHeader h0 prev (c + prev) :: s0 :: pySortBy lexLe (t ++ splice)).drop 2
      = pySortBy lexLe (t ++ splice) := rfl
  refine ⟨hd, ?_, ?_⟩
  · rw [hd]
    exact pySortBy_pairwise lexLe_total (fun h1 h2 => lexLe_trans h1 h2) _
  · rw [hd]
    exact pySortBy_perm lexLe _

/-- C10: the header rebuild substitutes the new count for every occurrence
of the old count's digits in characters 27 onward, not only the count
field: a second field past column 27 whose text equals the old count is
rewritten to the new count too. -/
theorem C10_replace_rewrites_every_occurrence (h : Line) (a b e old new : Nat)
    (hdrop : h.drop 27 = List.replicate a ' ' ++ natDigits old ++ List.replicate b ' '
      ++ natDigits old ++ List.replicate e ' ') :
    pyReplace (h.drop 27) (pyStr (old : Nat)) (pyStr (new : Nat))
      = List.replicate a ' ' ++ natDigits new ++ List.replicate b ' '
        ++ natDigits new ++ List.replicate e ' ' ∧
    updateHeader h (old : Nat) (new : Nat)
      = h.take 27 ++ rightJustify10 (List.replicate a ' ' ++ natDigits new
        ++ List.replicate b ' ' ++ natDigits new ++ List.replicate e ' ') := by
  constructor
  · rw [hdrop, pyStr_coe_nat, pyStr_coe_nat]
    exact pyReplace_two_occurrences a b e old new
  · rw [updateHeader_eq, hdrop, pyStr_coe_nat, pyStr_coe_nat,
      pyReplace_two_occurrences a b e old new]

/-- C8: merging a block with an identical copy of itself (same element key,
same declared count, same data lines) yields a sorted data-line list of
doubled length, and re-sorting the already-sorted accumulated lines leaves
them unchanged. -/
theorem C8_self_merge_doubles_and_sorts (h0 key : Line) (ds : List Line)
    (tok : List Char) (prev : Int)
    (htok : (splitWs h0).get? 4 = some tok) (hint : pyInt? tok = some prev)
    (_hcount : prev = (ds.length : Int)) :
    ∃ nb, mergeBlock (h0 :: key :: ds) (ds.length : Int) ds = Except.ok nb ∧
      nb.drop 2 = pySortBy lexLe (ds ++ ds) ∧
      (nb.drop 2).length = 2 * ds.length ∧
      (nb.drop 2).Pairwise (fun a b => lexLe a b = true) ∧
      pySortBy lexLe (nb.drop 2) = nb.drop 2 := by
  have hpair : (pySortBy lexLe (ds ++ ds)).Pairwise (fun a b => lexLe a b = true) :=
    pySortBy_pairwise lexLe_total (fun h1 h2 => lexLe_trans h1 h2) _
  refine ⟨updateHeader h0 prev ((ds.length : Int) + prev) :: key :: pySortBy lexLe (ds ++ ds),
    mergeBlock_ok_iff.mpr ⟨tok, prev, htok, hint, rfl⟩, rfl, ?_, hpair, ?_⟩
  · have hlen := (pySortBy_perm lexLe (ds ++ ds)).length_eq
    simp only [List.length_append] at hlen
    simp only [List.drop_succ_cons, List.drop_zero]
    omega
  · exact pySortBy_sorted_fixed hpair

/-- C1: merging two blocks read with the same element key gives a data-line
list of length the sum of the two declared counts; whitespace token 4 of
the rebuilt header is the decimal text of that sum and parses back to it;
consequently the merged block again satisfies
`len(lines) = declared_count`. -/
theorem C1_merge_count_invariant (pre key : Line) (m old incoming : Nat)
    (ds splice : List Line)
    (hpre : pre.length = 27) (hlast : pre.getLast? = some ' ')
    (htoks : (splitWs pre).length = 4)
    (hds : ds.length = old) (hsp : splice.length = incoming)
    (hsmall : (natDigits (old + incoming)).length ≤ 9) :
    ∃ nb, mergeBlock (headerWithCount pre m old :: key :: ds) (incoming : Int) splice
        = Except.ok nb ∧
      (nb.drop 2).length = old + incoming ∧
      (∃ H, nb.head? = some H ∧
        (splitWs H).get? 4 = some (natDigits (old + incoming)) ∧
        pyInt? (natDigits (old + incoming)) = some ((old + incoming : Nat) : Int)) ∧
      (∀ H tok cnt, nb.head? = some H → (splitWs H).get? 4 = some tok →
        pyInt? tok = some cnt → cnt = ((nb.drop 2).length : Int)) := by
  have htok0 : (splitWs (headerWithCount pre m old)).get? 4 = some (natDigits old) := by
    rw [splitWs_headerWithCount pre m old hlast]
    exact get?_four_of_len_four htoks
  have hint0 : pyInt? (natDigits old) = some (old : Int) := pyInt?_natDigits old
  have hcast : (incoming : Int) + (old : Int) = ((old + incoming : Nat) : Int) := by
    push_cast
    omega
  have hH : updateHeader (headerWithCount pre m old) (old : Int) ((incoming : Int) + (old : Int))
      = headerWithCount pre (9 - (natDigits (old + incoming)).length) (old + incoming) := by
    rw [hcast]
    exact updateHeader_headerWithCount pre m old (old + incoming) hpre hsmall
  have hdlen : (pySortBy lexLe (ds ++ splice)).length = old + incoming := by
    have := (pySortBy_perm lexLe (ds ++ splice)).length_eq
    simp only [List.length_append] at this
    omega
  have hHtok : (splitWs (updateHeader (headerWithCount pre m old) (old : Int)
      ((incoming : Int) + (old : Int)))).get? 4 = some (natDigits (old + incoming)) := by
    rw [hH, splitWs_headerWithCount pre _ _ hlast]
    exact get?_four_of_len_four htoks
  refine ⟨updateHeader (headerWithCount pre m old) (old : Int) ((incoming : Int) + (old : Int))
      :: key :: pySortBy lexLe (ds ++ splice),
    mergeBlock_ok_iff.mpr ⟨natDigits old, (old : Int), htok0, hint0, rfl⟩, ?_, ?_, ?_⟩
  · simpa using hdlen
  · exact ⟨_, rfl, hHtok, pyInt?_natDigits (old + incoming)⟩
  · intro H2 tok2 cnt hH2 htk2 hcnt
    have hH2e : H2 = updateHeader (headerWithCount pre m old) (old : Int)
        ((incoming : Int) + (old : Int)) := by
      simpa using hH2.symm
    subst hH2e
    rw [hHtok] at htk2
    have htok2e : tok2 = natDigits (old + incoming) := by simpa using htk2.symm
    subst htok2e
    rw [pyInt?_natDigits (old + incoming)] at hcnt
    have hcnte : cnt = ((old + incoming : Nat) : Int) := by simpa using hcnt.symm
    subst hcnte
    simp only [List.drop_succ_cons, List.drop_zero]
    rw [hdlen]

/-- C4: the output is the concatenation of the accumulated blocks sorted by
default sequence comparison of their `[header, element_key, data...]`
lists; on blocks with distinct headers the comparison is decided by the
literal header text alone, and with equal headers by the element key. -/
theorem C4_output_sorted_by_sequence_comparison (files : List (List Line)) (d2 : AtomDict)
    (hrun : runFiles files [] = some (Except.ok d2)) :
    turboSort files
      = some (Except.ok ((pySortBy blockLe (d2.map (fun p => p.2))).flatten)) ∧
    (pySortBy blockLe (d2.map (fun p => p.2))).Pairwise (fun x y => blockLe x y = true) ∧
    (pySortBy blockLe (d2.map (fun p => p.2))).Perm (d2.map (fun p => p.2)) ∧
    (∀ (h1 k1 : Line) (r1 : List Line) (h2 k2 : Line) (r2 : List Line), h1 ≠ h2 →
      blockLe (h1 :: k1 :: r1) (h2 :: k2 :: r2) = lexLe h1 h2) ∧
    (∀ (h k1 : Line) (r1 : List Line) (k2 : Line) (r2 : List Line), k1 ≠ k2 →
      blockLe (h :: k1 :: r1) (h :: k2 :: r2) = lexLe k1 k2) := by
  refine ⟨turboSort_of_runFiles hrun,
    pySortBy_pairwise blockLe_total (fun a b => blockLe_trans a b) _,
    pySortBy_perm _ _, ?_, ?_⟩
  · intro h1 k1 r1 h2 k2 r2 hne
    unfold blockLe blockLt lexLe
    rw [seqLt_cons]
    cases hlt : lexLt h2 h1 with
    | true => simp [hlt]
    | false =>
      cases hlt2 : lexLt h1 h2 with
      | true => simp [hlt, hlt2]
      | false =>
        unfold lexLt at hlt hlt2
        exact absurd (seqLt_conn charLt_strictTotal h1 h2 hlt2 hlt) hne
  · intro h k1 r1 k2 r2 hne
    unfold blockLe blockLt lexLe
    rw [seqLt_cons]
    have hirr : lexLt h h = false := seqLt_irrefl charLt_strictTotal h
    rw [hirr]
    simp only [Bool.false_eq_true, if_false, ite_false]
    rw [seqLt_cons]
    cases hlt : lexLt k2 k1 with
    | true => simp [hlt]
    | false =>
      cases hlt2 : lexLt k1 k2 with
      | true => simp [hlt, hlt2]
      | false =>
        unfold lexLt at hlt hlt2
        exact absurd (seqLt_conn charLt_strictTotal k1 k2 hlt2 hlt) hne

/-- C5 (amended): when a block's declared count exceeds the lines remaining
in the file, no error is raised: the slice is silently truncated to the
available lines, the loop ends, and the run succeeds with the short
block. -/
theorem C5_overrun_count_is_silently_truncated (h0 k : Line) (rest : List Line)
    (tok : List Char) (c : Int)
    (htok : (splitWs h0).get? 4 = some tok) (hc : pyInt? tok = some c)
    (hbig : (rest.length : Int) < c) :
    turboSort [h0 :: k :: rest] = some (Except.ok (h0 :: k :: rest)) := by
  have hlen : (h0 :: k :: rest).length = rest.length + 2 := by simp
  have hsplice : pySlice (h0 :: k :: rest) ((0 : Int) + 2) ((0 : Int) + 2 + c) = rest := by
    have e0 : (0 : Int) + 2 = ((2 : Nat) : Int) := by norm_num
    rw [e0, pySlice_clamped (h0 :: k :: rest) 2 c (by rw [hlen]; push_cast; omega)
      (by omega)]
    rfl
  have hw : walk (h0 :: k :: rest) ((h0 :: k :: rest).length + 1) 1 []
      = some (Except.ok [(k, h0 :: k :: rest)]) := by
    rw [hlen]
    have h1 : (1 : Int) = ((0 : Nat) : Int) + 1 := by norm_num
    rw [show rest.length + 2 + 1 = (rest.length + 2) + 1 from rfl, h1]
    rw [walk_step (h0 :: k :: rest) (rest.length + 2) 0 [] (by rw [hlen]; push_cast; omega)
      rfl rfl htok hc]
    simp only [dictLookup]
    have e0 : ((0 : Nat) : Int) + 2 = (0 : Int) + 2 := by norm_num
    rw [e0, hsplice]
    have hfuel : rest.length + 2 = (rest.length + 1) + 1 := by omega
    rw [hfuel, walk_stop _ _ _ _ (by rw [hlen]; push_cast; omega)]
    rfl
  unfold turboSort runFiles
  rw [hw]
  simp only [runFiles]
  have hsort : pySortBy blockLe [h0 :: k :: rest] = [h0 :: k :: rest] := rfl
  simp [hsort]

/-- C5 counterexample: a directory whose single file declares 5 data lines
but contains only one; `TurboSort` does not fail — it succeeds and writes
the truncated block unchanged. -/
theorem C5_counterexample_no_error_on_truncation :
    turboSort [[("A B C D 5\n" : String).data, ("K\n" : String).data,
        ("x\n" : String).data]]
      = some (Except.ok [("A B C D 5\n" : String).data, ("K\n" : String).data,
        ("x\n" : String).data]) := by
  rfl

/-- C6: a directory whose (first) file starts with a header of fewer than 5
whitespace tokens makes the merge fail with the index-out-of-range parse
error before any output is produced, whatever the other files hold. -/
theorem C6_short_header_fails_with_parse_error (h0 : Line) (rest : List Line)
    (files : List (List Line))
    (hshort : (splitWs h0).length < 5) (hne : rest ≠ []) :
    turboSort ((h0 :: rest) :: files) = some (Except.error ParseError.indexError) := by
  obtain ⟨r0, rest2, rfl⟩ := List.exists_cons_of_ne_nil hne
  have hw : walk (h0 :: r0 :: rest2) ((h0 :: r0 :: rest2).length + 1) 1 []
      = some (Except.error ParseError.indexError) := by
    have hlen : (h0 :: r0 :: rest2).length + 1 = (rest2.length + 2) + 1 := by simp
    rw [hlen, walk]
    rw [if_pos (by simp only [List.length_cons]; push_cast; omega)]
    have e1 : pyGet (h0 :: r0 :: rest2) ((1 : Int) - 1) = some h0 := by
      norm_num [pyGet]
    have e2 : pyGet (h0 :: r0 :: rest2) ((1 : Int) - 1 + 1) = some r0 := by
      norm_num [pyGet]
    have e3 : (splitWs h0).get? 4 = none := List.get?_eq_none.mpr (by omega)
    simp only [e1, e2, e3]
  unfold turboSort runFiles
  rw [hw]

/-- C7: for two files with pairwise distinct element keys (disjoint between
the files and unrepeated within them), the accumulator holds exactly the
union of the blocks of both files, each stored byte-for-byte as read, and
the output is their concatenation in sorted order — a permutation of the
as-read blocks. -/
theorem C7_disjoint_files_yield_unmodified_union (A B : List Line)
    (bsA bsB : List (Line × Line × List Line))
    (hA : readBlocks A = some bsA) (hB : readBlocks B = some bsB)
    (hnd : (((bsA ++ bsB).map fun b => b.2.1)).Nodup) :
    runFiles [A, B] []
      = some (Except.ok ((bsA ++ bsB).map fun b => (b.2.1, blockOf b))) ∧
    turboSort [A, B]
      = some (Except.ok ((pySortBy blockLe ((bsA ++ bsB).map blockOf)).flatten)) ∧
    (pySortBy blockLe ((bsA ++ bsB).map blockOf)).Perm ((bsA ++ bsB).map blockOf) := by
  have hndsplit := List.nodup_append.mp (by
    rw [← List.map_append]
    exact hnd)
  obtain ⟨hndA, hndB, hdisj⟩ := hndsplit
  have hlenA := specReadBlocks_length_le hA
  have hlenB := specReadBlocks_length_le hB
  have hwA : walk A (A.length + 1) 1 []
      = some (Except.ok (bsA.map fun b => (b.2.1, blockOf b))) := by
    have h1 : (1 : Int) = ((0 : Nat) : Int) + 1 := by norm_num
    rw [h1, walk_spec_fresh bsA (A.length + 1) A 0 [] (A.length + 1)
      (by simpa using hA) (fun b _ => rfl) hndA (by omega)]
    simp
  have hwB : walk B (B.length + 1) 1 (bsA.map fun b => (b.2.1, blockOf b))
      = some (Except.ok ((bsA.map fun b => (b.2.1, blockOf b))
        ++ bsB.map fun b => (b.2.1, blockOf b))) := by
    have h1 : (1 : Int) = ((0 : Nat) : Int) + 1 := by norm_num
    rw [h1, walk_spec_fresh bsB (B.length + 1) B 0 _ (B.length + 1)
      (by simpa using hB) ?_ hndB (by omega)]
    intro b hb
    rw [dictLookup_eq_none_iff]
    intro hmem
    have : b.2.1 ∈ bsA.map fun b => b.2.1 := by
      simpa [Function.comp] using hmem
    exact hdisj this (List.mem_map_of_mem _ hb)
  have hrun : runFiles [A, B] []
      = some (Except.ok ((bsA ++ bsB).map fun b => (b.2.1, blockOf b))) := by
    simp only [runFiles, hwA, hwB, List.map_append]
  refine ⟨hrun, ?_, pySortBy_perm _ _⟩
  have ht := turboSort_of_runFiles hrun
  have hmap : (((bsA ++ bsB).map fun b => (b.2.1, blockOf b)).map (fun p => p.2))
      = (bsA ++ bsB).map blockOf := by
    rw [List.map_map]
    rfl
  rw [ht, hmap]

/-- C9: a successful run's output consists only of input lines reproduced
byte-for-byte plus rebuilt headers agreeing with some input line on
columns 0-26; and each merge keeps the stored key line, keeps the stored
header's first 27 characters, and only permutes (re-sorts) the combined
data lines. -/
theorem C9_output_lines_traceable (files : List (List Line)) (out : List Line)
    (hlen : ∀ l ∈ files.flatten, 27 ≤ l.length)
    (hout : turboSort files = some (Except.ok out)) :
    (∀ l ∈ out, l ∈ files.flatten
      ∨ ∃ h, h ∈ files.flatten ∧ l.take 27 = h.take 27) ∧
    (∀ (h0 s0 : Line) (t : List Line) (c : Int) (splice : List Line) (nb : Block),
      27 ≤ h0.length → mergeBlock (h0 :: s0 :: t) c splice = Except.ok nb →
      ∃ uh, nb = uh :: s0 :: pySortBy lexLe (t ++ splice) ∧
        uh.take 27 = h0.take 27 ∧
        (pySortBy lexLe (t ++ splice)).Perm (t ++ splice)) := by
  constructor
  · obtain ⟨d2, hrun, hout2⟩ := turboSort_ok_inv hout
    have hgd : goodDict files.flatten d2 :=
      runFiles_goodDict files [] d2
        (fun f hf l hl => List.mem_flatten.mpr ⟨f, hf, hl⟩) hlen
        (fun kv hkv => absurd hkv (List.not_mem_nil kv)) hrun
    intro l hl
    rw [hout2] at hl
    obtain ⟨b, hb, hlb⟩ := List.mem_flatten.mp hl
    have hb2 : b ∈ d2.map (fun p => p.2) := (pySortBy_perm blockLe _).mem_iff.mp hb
    obtain ⟨kv, hkv, rfl⟩ := List.mem_map.mp hb2
    exact (hgd kv hkv).1 l hlb
  · intro h0 s0 t c splice nb h27 hmerge
    obtain ⟨tok, prev, htok, hint, rfl⟩ := mergeBlock_ok_iff.mp hmerge
    exact ⟨updateHeader h0 prev (c + prev), rfl,
      (updateHeader_take27 h27 prev (c + prev)).1, pySortBy_perm _ _⟩

/-! ## Witnesses: each theorem with hypotheses applied at a concrete input -/

/-- C1 witness: a canonical 27+10-character header with count 1 merged with
two incoming lines. -/
theorem C1_merge_count_invariant_witness :
    ∃ nb, mergeBlock
        (headerWithCount (("' 3.000             '    1 " : String).data) 2 1
          :: ("K\n" : String).data :: [("b\n" : String).data])
        ((2 : Nat) : Int) [("a\n" : String).data, ("c\n" : String).data]
      = Except.ok nb ∧
      (nb.drop 2).length = 1 + 2 ∧
      (∃ H, nb.head? = some H ∧
        (splitWs H).get? 4 = some (natDigits (1 + 2)) ∧
        pyInt? (natDigits (1 + 2)) = some ((1 + 2 : Nat) : Int)) ∧
      (∀ H tok cnt, nb.head? = some H → (splitWs H).get? 4 = some tok →
        pyInt? tok = some cnt → cnt = ((nb.drop 2).length : Int)) :=
  C1_merge_count_invariant (("' 3.000             '    1 " : String).data)
    (("K\n" : String).data) 2 1 2
    [("b\n" : String).data] [("a\n" : String).data, ("c\n" : String).data]
    (by decide) (by decide) (by decide) (by decide) (by decide) (by decide)

/-- C3 witness: the merge of stored line `b` with incoming line `a` re-sorts
the whole accumulated list. -/
theorem C3_merge_resorts_whole_list_witness :
    ([("a b c d 1\n          " : String).data, ("K\n" : String).data,
        ("a\n" : String).data, ("b\n" : String).data].drop 2
      = pySortBy lexLe ([("b\n" : String).data] ++ [("a\n" : String).data])) ∧
    ([("a b c d 1\n          " : String).data, ("K\n" : String).data,
        ("a\n" : String).data, ("b\n" : String).data].drop 2).Pairwise
      (fun a b => lexLe a b = true) ∧
    ([("a b c d 1\n          " : String).data, ("K\n" : String).data,
        ("a\n" : String).data, ("b\n" : String).data].drop 2).Perm
      ([("b\n" : String).data] ++ [("a\n" : String).data]) :=
  C3_merge_resorts_whole_list (("a b c d 1\n" : String).data) (("K\n" : String).data)
    [("b\n" : String).data] 1 [("a\n" : String).data]
    [("a b c d 1\n          " : String).data, ("K\n" : String).data,
      ("a\n" : String).data, ("b\n" : String).data] (by rfl)

/-- C4 witness: a one-block directory. -/
theorem C4_output_sorted_witness :
    turboSort [[("a b c d 1\n" : String).data, ("K\n" : String).data,
        ("x\n" : String).data]]
      = some (Except.ok ((pySortBy blockLe
          (([(("K\n" : String).data, [("a b c d 1\n" : String).data,
            ("K\n" : String).data, ("x\n" : String).data])] : AtomDict).map
            (fun p => p.2))).flatten)) ∧
    (pySortBy blockLe (([(("K\n" : String).data, [("a b c d 1\n" : String).data,
        ("K\n" : String).data, ("x\n" : String).data])] : AtomDict).map
        (fun p => p.2))).Pairwise (fun x y => blockLe x y = true) ∧
    (pySortBy blockLe (([(("K\n" : String).data, [("a b c d 1\n" : String).data,
        ("K\n" : String).data, ("x\n" : String).data])] : AtomDict).map
        (fun p => p.2))).Perm
      (([(("K\n" : String).data, [("a b c d 1\n" : String).data,
        ("K\n" : String).data, ("x\n" : String).data])] : AtomDict).map (fun p => p.2)) ∧
    (∀ (h1 k1 : Line) (r1 : List Line) (h2 k2 : Line) (r2 : List Line), h1 ≠ h2 →
      blockLe (h1 :: k1 :: r1) (h2 :: k2 :: r2) = lexLe h1 h2) ∧
    (∀ (h k1 : Line) (r1 : List Line) (k2 : Line) (r2 : List Line), k1 ≠ k2 →
      blockLe (h :: k1 :: r1) (h :: k2 :: r2) = lexLe k1 k2) :=
  C4_output_sorted_by_sequence_comparison
    [[("a b c d 1\n" : String).data, ("K\n" : String).data, ("x\n" : String).data]]
    [(("K\n" : String).data, [("a b c d 1\n" : String).data, ("K\n" : String).data,
      ("x\n" : String).data])] (by rfl)

/-- C5 witness for the amended claim: declared count 5 with a single line
remaining. -/
theorem C5_overrun_count_witness :
    turboSort [("A B C D 5\n" : String).data :: ("K\n" : String).data
        :: [("x\n" : String).data]]
      = some (Except.ok (("A B C D 5\n" : String).data :: ("K\n" : String).data
        :: [("x\n" : String).data])) :=
  C5_overrun_count_is_silently_truncated (("A B C D 5\n" : String).data)
    (("K\n" : String).data) [("x\n" : String).data] (("5" : String).data) 5
    (by decide) (by decide) (by decide)

/-- C6 witness: a three-token header. -/
theorem C6_short_header_witness :
    turboSort ((("a b c\n" : String).data :: [("K\n" : String).data]) :: [])
      = some (Except.error ParseError.indexError) :=
  C6_short_header_fails_with_parse_error (("a b c\n" : String).data)
    [("K\n" : String).data] [] (by decide) (by decide)

/-- C7 witness: two one-block files with different element keys. -/
theorem C7_disjoint_files_witness :
    runFiles [[("a b c d 1\n" : String).data, ("K1\n" : String).data,
        ("x\n" : String).data],
      [("e f g h 1\n" : String).data, ("K2\n" : String).data, ("y\n" : String).data]] []
      = some (Except.ok (([(("a b c d 1\n" : String).data, ("K1\n" : String).data,
          [("x\n" : String).data])]
        ++ [(("e f g h 1\n" : String).data, ("K2\n" : String).data,
          [("y\n" : String).data])]).map fun b => (b.2.1, blockOf b))) ∧
    turboSort [[("a b c d 1\n" : String).data, ("K1\n" : String).data,
        ("x\n" : String).data],
      [("e f g h 1\n" : String).data, ("K2\n" : String).data, ("y\n" : String).data]]
      = some (Except.ok ((pySortBy blockLe
        (([(("a b c d 1\n" : String).data, ("K1\n" : String).data,
            [("x\n" : String).data])]
          ++ [(("e f g h 1\n" : String).data, ("K2\n" : String).data,
            [("y\n" : String).data])]).map blockOf)).flatten)) ∧
    (pySortBy blockLe (([(("a b c d 1\n" : String).data, ("K1\n" : String).data,
        [("x\n" : String).data])]
      ++ [(("e f g h 1\n" : String).data, ("K2\n" : String).data,
        [("y\n" : String).data])]).map blockOf)).Perm
      (([(("a b c d 1\n" : String).data, ("K1\n" : String).data, [("x\n" : String).data])]
        ++ [(("e f g h 1\n" : String).data, ("K2\n" : String).data,
          [("y\n" : String).data])]).map blockOf) :=
  C7_disjoint_files_yield_unmodified_union
    [("a b c d 1\n" : String).data, ("K1\n" : String).data, ("x\n" : String).data]
    [("e f g h 1\n" : String).data, ("K2\n" : String).data, ("y\n" : String).data]
    [(("a b c d 1\n" : String).data, ("K1\n" : String).data, [("x\n" : String).data])]
    [(("e f g h 1\n" : String).data, ("K2\n" : String).data, [("y\n" : String).data])]
    (by rfl) (by rfl) (by decide)

/-- C8 witness: a one-line block merged with its own copy. -/
theorem C8_self_merge_witness :
    ∃ nb, mergeBlock (("a b c d 1\n" : String).data :: ("K\n" : String).data
        :: [("b\n" : String).data])
        (([("b\n" : String).data].length : Int)) [("b\n" : String).data]
      = Except.ok nb ∧
      nb.drop 2 = pySortBy lexLe ([("b\n" : String).data] ++ [("b\n" : String).data]) ∧
      (nb.drop 2).length = 2 * [("b\n" : String).data].length ∧
      (nb.drop 2).Pairwise (fun a b => lexLe a b = true) ∧
      pySortBy lexLe (nb.drop 2) = nb.drop 2 :=
  C8_self_merge_doubles_and_sorts (("a b c d 1\n" : String).data)
    (("K\n" : String).data) [("b\n" : String).data] (("1" : String).data) 1
    (by decide) (by decide) (by decide)

/-- C9 witness: a one-block directory whose lines are all at least 27
characters long. -/
theorem C9_output_lines_traceable_witness :
    (∀ l ∈ [("a b c d 1                  \n" : String).data,
        ("KKKKKKKKKKKKKKKKKKKKKKKKKKK\n" : String).data,
        ("xxxxxxxxxxxxxxxxxxxxxxxxxxx\n" : String).data],
      l ∈ ([[("a b c d 1                  \n" : String).data,
        ("KKKKKKKKKKKKKKKKKKKKKKKKKKK\n" : String).data,
        ("xxxxxxxxxxxxxxxxxxxxxxxxxxx\n" : String).data]] : List (List Line)).flatten
      ∨ ∃ h, h ∈ ([[("a b c d 1                  \n" : String).data,
        ("KKKKKKKKKKKKKKKKKKKKKKKKKKK\n" : String).data,
        ("xxxxxxxxxxxxxxxxxxxxxxxxxxx\n" : String).data]] : List (List Line)).flatten
        ∧ l.take 27 = h.take 27) ∧
    (∀ (h0 s0 : Line) (t : List Line) (c : Int) (splice : List Line) (nb : Block),
      27 ≤ h0.length → mergeBlock (h0 :: s0 :: t) c splice = Except.ok nb →
      ∃ uh, nb = uh :: s0 :: pySortBy lexLe (t ++ splice) ∧
        uh.take 27 = h0.take 27 ∧
        (pySortBy lexLe (t ++ splice)).Perm (t ++ splice)) :=
  C9_output_lines_traceable
    [[("a b c d 1                  \n" : String).data,
      ("KKKKKKKKKKKKKKKKKKKKKKKKKKK\n" : String).data,
      ("xxxxxxxxxxxxxxxxxxxxxxxxxxx\n" : String).data]]
    [("a b c d 1                  \n" : String).data,
      ("KKKKKKKKKKKKKKKKKKKKKKKKKKK\n" : String).data,
      ("xxxxxxxxxxxxxxxxxxxxxxxxxxx\n" : String).data]
    (by decide) (by rfl)

/-- C7 counterexample: two files whose element-key sets are disjoint
(`K` only in the first, `L` only in the second), yet the first file repeats
key `K`, so its two blocks merge and the stored block is modified — the
output contains a rebuilt header line that appears in neither input file,
refuting "every such block is emitted unmodified". -/
theorem C7_counterexample_intra_file_duplicate_key :
    turboSort [[("a b c d 1\n" : String).data, ("K\n" : String).data,
        ("x\n" : String).data, ("a b c d 1\n" : String).data, ("K\n" : String).data,
        ("y\n" : String).data],
      [("e f g h 1\n" : String).data, ("L\n" : String).data, ("z\n" : String).data]]
      = some (Except.ok [("a b c d 1\n          " : String).data,
        ("K\n" : String).data, ("x\n" : String).data, ("y\n" : String).data,
        ("e f g h 1\n" : String).data, ("L\n" : String).data, ("z\n" : String).data]) ∧
    (("a b c d 1\n          " : String).data
      ∉ [("a b c d 1\n" : String).data, ("K\n" : String).data, ("x\n" : String).data,
          ("a b c d 1\n" : String).data, ("K\n" : String).data, ("y\n" : String).data]
        ++ [("e f g h 1\n" : String).data, ("L\n" : String).data,
          ("z\n" : String).data]) := by
  constructor
  · rfl
  · decide

/-- C10 witness: a header whose remainder holds the old count's digits twice;
both are rewritten. -/
theorem C10_replace_everywhere_witness :
    pyReplace ((("123456789012345678901234567  7 7" : String).data).drop 27)
        (pyStr ((7 : Nat) : Int)) (pyStr ((9 : Nat) : Int))
      = List.replicate 2 ' ' ++ natDigits 9 ++ List.replicate 1 ' '
        ++ natDigits 9 ++ List.replicate 0 ' ' ∧
    updateHeader (("123456789012345678901234567  7 7" : String).data)
        ((7 : Nat) : Int) ((9 : Nat) : Int)
      = (("123456789012345678901234567  7 7" : String).data).take 27
        ++ rightJustify10 (List.replicate 2 ' ' ++ natDigits 9 ++ List.replicate 1 ' '
          ++ natDigits 9 ++ List.replicate 0 ' ') :=
  C10_replace_rewrites_every_occurrence
    (("123456789012345678901234567  7 7" : String).data) 2 1 0 7 9 (by decide)

end VALD
